import Mathlib

/-!
# Iterated local search for the travelling salesman problem (`main.c`)

A shallow embedding of the optimisation engine of `main.c`:

* `nextRand`            the Lehmer pseudo-random generator (global `iseed` passed explicitly),
* `generateRandomTour`  the random tour construction,
* `length`              the cost of a tour,
* `swap`, `greedyLS`    the 2-opt best-improvement local search,
* `ils`                 the iterated local search driver.

Conventions of the embedding.

* A C array of `size_t` is a `List Nat`; a read `a[x]` is `a.getD x 0` and a write
  `a[x] = v` is `a.set x v`.  All theorems are stated for arrays that have `n` cells.
* The read-only cost matrix `const int **cost` is a function `Nat → Nat → Int`.
* `int` values are exact integers (`Int`); `size_t` values are natural numbers.  The vertex
  count `n` is cast to `int` without change: an `n × n` matrix of `int` exists only for
  `n < 2^31`.
* C division and remainder truncate towards zero: `Int.tdiv` and `Int.tmod`.
* The `while (true)` loop of `greedyLS` is bounded by a fuel argument counting passes;
  running out of fuel gives `none`.
-/

namespace TspLs

/-! ## The pseudo-random generator -/

/-- The value `i` computed on the first line of `nextRand`. -/
def nextRandI (iseed : Int) : Int :=
  16807 * (Int.tmod iseed 127773) - 2836 * (Int.tdiv iseed 127773)

/-- The new value of the global `iseed` after one call of `nextRand`. -/
def nextSeed (iseed : Int) : Int :=
  let i := nextRandI iseed
  if i > 0 then i else 2147483647 + i

/-- Function `nextRand(n)`: the pair of the new value of `iseed` and the returned value. -/
def nextRand (iseed : Int) (n : Int) : Int × Int :=
  let iseed := nextSeed iseed
  (iseed, Int.tmod iseed n)

/-- The calls `nextRand(n_1)`, `nextRand(n_2)`, ... made one after the other from the state
`iseed`: for each call, the state after it and the value it returned. -/
def nextRandSeq : Int → List Int → List (Int × Int)
  | _, [] => []
  | iseed, n :: ns => nextRand iseed n :: nextRandSeq (nextRand iseed n).1 ns

/-- States of the generator that some sequence of calls `nextRand(n)` with `n ≥ 1` reaches
from the initial value `iseed = 1`. -/
inductive Reachable : Int → Prop
  | seed : Reachable 1
  | next (s n : Int) : Reachable s → 1 ≤ n → Reachable (nextRand s n).1

/-! ## Tours -/

/-- Function `length`: the sum of the costs of the `n` edges of the cyclic tour. -/
def length (n : Nat) (solution : List Nat) (cost : Nat → Nat → Int) : Int :=
  let total := (List.range' 1 (n - 1)).foldl
    (fun total i => total + cost (solution.getD (i - 1) 0) (solution.getD i 0)) 0
  total + cost (solution.getD (n - 1) 0) (solution.getD 0 0)

/-- Function `swap`: exchange the cells `x` and `y` of `array`. -/
def swap (array : List Nat) (x y : Nat) : List Nat :=
  let tmp := array.getD x 0
  let array := array.set x (array.getD y 0)
  array.set y tmp

/-- Struct `Pair`. -/
structure Pair where
  i : Nat
  j : Nat
deriving DecidableEq, Repr

/-- The `benefit` computed in the inner loop of `greedyLS` for the loop indices `i`, `j`. -/
def benefit (n : Nat) (solution : List Nat) (cost : Nat → Nat → Int) (i j : Nat) : Int :=
  cost (solution.getD i 0) (solution.getD ((i + 1) % n) 0)
    + cost (solution.getD (j % n) 0) (solution.getD ((j + 1) % n) 0)
    - cost (solution.getD i 0) (solution.getD (j % n) 0)
    - cost (solution.getD ((i + 1) % n) 0) (solution.getD ((j + 1) % n) 0)

/-- Body of the inner `for` loop of `greedyLS`, on the pair `(best, swap_indices)`. -/
def scanStep (n : Nat) (solution : List Nat) (cost : Nat → Nat → Int) (i : Nat)
    (acc : Int × Pair) (j : Nat) : Int × Pair :=
  let benefit := benefit n solution cost i j
  if benefit > acc.1 then (benefit, ⟨i + 1, j⟩) else acc

/-- The inner loop `for (j = i + 2; j <= n; j++)` of `greedyLS`. -/
def scanInner (n : Nat) (solution : List Nat) (cost : Nat → Nat → Int)
    (acc : Int × Pair) (i : Nat) : Int × Pair :=
  (List.range' (i + 2) (n + 1 - (i + 2))).foldl (scanStep n solution cost i) acc

/-- One full scan `for (i = 0; i < n; i++)` of `greedyLS`, from `best = 0`.  The struct
`swap_indices` is not initialised in C; it is read only after it has been assigned, so the
initial value chosen here is never observed. -/
def scan (n : Nat) (solution : List Nat) (cost : Nat → Nat → Int) : Int × Pair :=
  (List.range n).foldl (scanInner n solution cost) (0, ⟨0, 0⟩)

/-- The loop `while (swap_indices.i < swap_indices.j)` of `greedyLS`.  The first argument
bounds the number of iterations; `j - i` iterations are always enough, since every iteration
brings the two indices closer by two. -/
def reverseLoop : Nat → Nat → List Nat → Nat → Nat → List Nat
  | 0, _, solution, _, _ => solution
  | fuel + 1, n, solution, i, j =>
    if i < j then reverseLoop fuel n (swap solution (i % n) (j % n)) (i + 1) (j - 1)
    else solution

/-- One pass of the `while (true)` loop of `greedyLS`: `none` when the loop breaks
(`best == 0`), otherwise the new `total` and `solution`. -/
def greedyPass (total : Int) (n : Nat) (solution : List Nat) (cost : Nat → Nat → Int) :
    Option (Int × List Nat) :=
  let r := scan n solution cost
  if r.1 = 0 then none
  else some (total - r.1, reverseLoop (r.2.j - r.2.i) n solution r.2.i r.2.j)

/-- Function `greedyLS`, with at most `fuel` passes of its `while (true)` loop: the returned
`total` and the final content of `solution`, or `none` when the fuel runs out. -/
def greedyLS : Nat → Int → Nat → List Nat → (Nat → Nat → Int) → Option (Int × List Nat)
  | 0, _, _, _, _ => none
  | fuel + 1, total, n, solution, cost =>
    match greedyPass total n solution cost with
    | none => some (total, solution)
    | some (total, solution) => greedyLS fuel total n solution cost

/-! ## Random tour construction -/

/-- Local state of the loop of `generateRandomTour`. -/
structure TourGen where
  iseed : Int
  cand : List Nat
  sol : List Nat
  nbCand : Nat
  total : Int

/-- Body of the loop `for (i = 1; i < n; i++)` of `generateRandomTour`. -/
def genStep (cost : Nat → Nat → Int) (st : TourGen) (i : Nat) : TourGen :=
  let r := nextRand st.iseed (st.nbCand : Int)
  let j := r.2.toNat
  let sol := st.sol.set i (st.cand.getD j 0)
  let nbCand := st.nbCand - 1
  let cand := st.cand.set j (st.cand.getD nbCand 0)
  let total := st.total + cost (sol.getD (i - 1) 0) (sol.getD i 0)
  ⟨r.1, cand, sol, nbCand, total⟩

/-- Function `generateRandomTour`: the new value of `iseed`, the returned total and the final
content of `sol`. -/
def generateRandomTour (iseed : Int) (n : Nat) (cost : Nat → Nat → Int) (sol : List Nat) :
    Int × Int × List Nat :=
  let cand := List.range n
  let r := nextRand iseed (n : Int)
  let sol := sol.set 0 r.2.toNat
  let cand := cand.set (sol.getD 0 0) (n - 1)
  let st := (List.range' 1 (n - 1)).foldl (genStep cost) ⟨r.1, cand, sol, n - 1, 0⟩
  let total := st.total + cost (st.sol.getD (n - 1) 0) (st.sol.getD 0 0)
  (st.iseed, total, st.sol)

/-! ## The driver -/

/-- The statement `swap(curr, nextRand(n), nextRand(n))`, on the generator state and `curr`.
The two draws are made from left to right; `swap` is symmetric in its two positions, so the
other order gives the same array and the same generator state. -/
def perturbStep (n : Nat) (st : Int × List Nat) : Int × List Nat :=
  let x := nextRand st.1 (n : Int)
  let y := nextRand x.1 (n : Int)
  (y.1, swap st.2 x.2.toNat y.2.toNat)

/-- The cost matrix is symmetric on `[0, n-1]`. -/
def Symmetric (n : Nat) (cost : Nat → Nat → Int) : Prop :=
  ∀ i < n, ∀ j < n, cost i j = cost j i

/-- Every diagonal entry is strictly larger than every off-diagonal entry. -/
def DiagLarger (n : Nat) (cost : Nat → Nat → Int) : Prop :=
  ∀ d < n, ∀ i < n, ∀ j < n, i ≠ j → cost i j < cost d d

/-- The tour is a permutation of `[0, n-1]`. -/
def IsTour (n : Nat) (solution : List Nat) : Prop :=
  solution.Perm (List.range n)

/-- The Lehmer recurrence with multiplier `16807` and modulus `2^31 - 1`, as a reference
for `nextRand`. -/
def lehmer (s : Int) : Int :=
  (16807 * s) % (2 ^ 31 - 1)

/-- Cost of the open path that visits the vertices of the list in order. -/
def pathCost (cost : Nat → Nat → Int) : List Nat → Int
  | [] => 0
  | [_] => 0
  | x :: y :: r => cost x y + pathCost cost (y :: r)

/-- The pairs of loop indices `(i, j)` that one scan of `greedyLS` examines, in scan order. -/
def scanPairs (n : Nat) : List (Nat × Nat) :=
  (List.range n).flatMap fun i => (List.range' (i + 2) (n + 1 - (i + 2))).map fun j => (i, j)

/-- A quadrilateral instance on four vertices: sides of cost `10`, diagonals of cost `14`,
and `1000000` on the diagonal of the matrix. -/
def quadCost : Nat → Nat → Int := fun i j =>
  if i = j then 1000000 else if (i + j) % 2 = 0 then 14 else 10

/-- Invariant of the loop of `generateRandomTour` at index `i`: the cells written so far
and the remaining candidates together are a permutation of `[0, n-1]`. -/
def GenInv (n : Nat) (st : TourGen) (i : Nat) : Prop :=
  st.sol.length = n ∧ st.cand.length = n ∧ st.nbCand + i = n ∧
    1 ≤ st.iseed ∧ st.iseed ≤ 2147483646 ∧
    (st.sol.take i ++ st.cand.take st.nbCand).Perm (List.range n)

/-- A symmetric instance on six vertices, with `1000` on the diagonal of the matrix. -/
def sampleCost : Nat → Nat → Int := fun i j =>
  if i = j then 1000 else (((i + 1) * (j + 1) * (i + j + 3)) % 11 : Nat)

/-- The statement `swap(curr, nextRand(n), nextRand(n))` when the second argument is
evaluated before the first one. -/
def perturbStepRL (n : Nat) (st : Int × List Nat) : Int × List Nat :=
  let y := nextRand st.1 (n : Int)
  let x := nextRand y.1 (n : Int)
  (x.1, swap st.2 x.2.toNat y.2.toNat)

/-- Body of the loop of `generateRandomTour`, with the result `j` of the call of `nextRand`
given; the generator state is left alone. -/
def genStepWith (cost : Nat → Nat → Int) (st : TourGen) (i j : Nat) : TourGen :=
  let sol := st.sol.set i (st.cand.getD j 0)
  let nbCand := st.nbCand - 1
  let cand := st.cand.set j (st.cand.getD nbCand 0)
  let total := st.total + cost (sol.getD (i - 1) 0) (sol.getD i 0)
  ⟨st.iseed, cand, sol, nbCand, total⟩

/-- The loop of `generateRandomTour` from index `i`, one iteration for each given draw. -/
def genLoopWith (cost : Nat → Nat → Int) : List Nat → Nat → TourGen → TourGen
  | [], _, st => st
  | j :: draws, i, st => genLoopWith cost draws (i + 1) (genStepWith cost st i j)

/-- Function `generateRandomTour` with the successive results of `nextRand` given as the
list `draws`: the final content of `sol`. -/
def generateRandomTourWith (draws : List Nat) (n : Nat) (cost : Nat → Nat → Int)
    (sol : List Nat) : List Nat :=
  match draws with
  | [] => sol
  | d :: draws =>
    let cand := List.range n
    let sol := sol.set 0 d
    let cand := cand.set (sol.getD 0 0) (n - 1)
    (genLoopWith cost draws 1 ⟨0, cand, sol, n - 1, 0⟩).sol

/-- The results of the calls `nextRand(m)`, `nextRand(m-1)`, ..., `nextRand(1)` made one
after the other from the state `iseed`, as array indices. -/
def drawsFrom : Int → Nat → List Nat
  | _, 0 => []
  | iseed, m + 1 =>
    (nextRand iseed ((m + 1 : Nat) : Int)).2.toNat
      :: drawsFrom (nextRand iseed ((m + 1 : Nat) : Int)).1 m

/-- The draws that `generateRandomTour` makes from the state `iseed`: `nextRand(n)`, then
`nextRand(n-1)`, ..., `nextRand(1)`. -/
def drawsOf (iseed : Int) (n : Nat) : List Nat :=
  (nextRand iseed (n : Int)).2.toNat :: drawsFrom (nextRand iseed (n : Int)).1 (n - 1)

/-- Draw sequences `d_0, ..., d_(m-1)` with `d_i < m - i`. -/
def ValidDraws : Nat → List Nat → Prop
  | 0, ds => ds = []
  | _ + 1, [] => False
  | m + 1, d :: ds => d < m + 1 ∧ ValidDraws m ds

/-- Removal of the candidate at index `d`: the last candidate takes its place. -/
def swapRemove (C : List Nat) (d : Nat) : List Nat :=
  (C.set d (C.getD (C.length - 1) 0)).take (C.length - 1)

/-- The vertices drawn from the candidates `C` by the successive draws. -/
def drawAll : List Nat → List Nat → List Nat
  | _, [] => []
  | C, d :: ds => C.getD d 0 :: drawAll (swapRemove C d) ds

/-! ## The generator: range and recurrence -/

theorem nextRandI_eq (s : Int) (h1 : 1 ≤ s) :
    nextRandI s = 16807 * (s % 127773) - 2836 * (s / 127773) := by
  unfold nextRandI
  rw [Int.tmod_eq_emod (by omega) (by norm_num), Int.tdiv_eq_ediv (by omega) (by norm_num)]

/-- The value `i` is never zero on a state of `[1, 2^31 - 2]`: `2836` is invertible modulo
`16807`, with inverse `5790`. -/
theorem nextRandI_ne_zero (s : Int) (h1 : 1 ≤ s) (h2 : s ≤ 2147483646) : nextRandI s ≠ 0 := by
  rw [nextRandI_eq s h1]
  intro h
  have hq : s / 127773 = 16807 * (5790 * (s % 127773) - 977 * (s / 127773)) := by omega
  omega

theorem nextSeed_eq_mod (s : Int) (h1 : 1 ≤ s) (h2 : s ≤ 2147483646) :
    nextSeed s = (16807 * s) % 2147483647 := by
  have h0 := nextRandI_ne_zero s h1 h2
  unfold nextSeed
  simp only
  rw [nextRandI_eq s h1] at h0 ⊢
  have key : 16807 * s
      = 2147483647 * (s / 127773) + (16807 * (s % 127773) - 2836 * (s / 127773)) := by
    omega
  generalize 16807 * (s % 127773) - 2836 * (s / 127773) = i at *
  have hlo : -2147483647 < i := by omega
  have hhi : i < 2147483647 := by omega
  split_ifs with h
  · rw [key]; omega
  · rw [key]; omega

theorem nextRandI_bounds (s : Int) (h1 : 1 ≤ s) (h2 : s ≤ 2147483646) :
    -2147483647 < nextRandI s ∧ nextRandI s < 2147483647 := by
  rw [nextRandI_eq s h1]
  constructor <;> omega

theorem nextSeed_range (s : Int) (h1 : 1 ≤ s) (h2 : s ≤ 2147483646) :
    1 ≤ nextSeed s ∧ nextSeed s ≤ 2147483646 := by
  have h0 := nextRandI_ne_zero s h1 h2
  have hb := nextRandI_bounds s h1 h2
  unfold nextSeed
  simp only
  generalize nextRandI s = i at *
  split_ifs with h <;> omega

theorem nextRand_fst (s n : Int) : (nextRand s n).1 = nextSeed s := rfl

theorem nextRand_snd (s n : Int) : (nextRand s n).2 = Int.tmod (nextSeed s) n := rfl

theorem nextRand_snd_range (s n : Int) (h1 : 1 ≤ s) (h2 : s ≤ 2147483646) (hn : 1 ≤ n) :
    0 ≤ (nextRand s n).2 ∧ (nextRand s n).2 ≤ n - 1 := by
  have h := nextSeed_range s h1 h2
  rw [nextRand_snd, Int.tmod_eq_emod (by omega) (by omega)]
  constructor
  · exact Int.emod_nonneg _ (by omega)
  · have := Int.emod_lt_of_pos (nextSeed s) (show 0 < n by omega)
    omega

/-- The drawn index, as a `size_t`, is below `n`. -/
theorem nextRand_toNat_lt (s : Int) (n : Nat) (h1 : 1 ≤ s) (h2 : s ≤ 2147483646)
    (hn : 1 ≤ n) : (nextRand s (n : Int)).2.toNat < n := by
  have h := nextRand_snd_range s n h1 h2 (by omega)
  omega

theorem reachable_range (s : Int) (h : Reachable s) : 1 ≤ s ∧ s ≤ 2147483646 := by
  induction h with
  | seed => decide
  | next s n _ _ ih => exact nextSeed_range s ih.1 ih.2

theorem nextRandSeq_range (ns : List Int) (h : ∀ n ∈ ns, 1 ≤ n) (s : Int) (h1 : 1 ≤ s)
    (h2 : s ≤ 2147483646) :
    List.Forall₂ (fun n p => 1 ≤ p.1 ∧ p.1 ≤ 2 ^ 31 - 2 ∧ 0 ≤ p.2 ∧ p.2 ≤ n - 1)
      ns (nextRandSeq s ns) := by
  induction ns generalizing s with
  | nil => exact List.Forall₂.nil
  | cons n ns ih =>
    have hn : 1 ≤ n := h n (List.mem_cons_self _ _)
    have hs := nextSeed_range s h1 h2
    have hr := nextRand_snd_range s n h1 h2 hn
    refine List.Forall₂.cons ⟨hs.1, ?_, hr.1, hr.2⟩ ?_
    · rw [nextRand_fst]; norm_num; exact hs.2
    · exact ih (fun m hm => h m (List.mem_cons_of_mem _ hm)) _ hs.1 hs.2

/-! ## Claims on the generator -/

/-- C7. Starting from `iseed = 1`, for every finite sequence of calls `nextRand(n_1)`,
`nextRand(n_2)`, ... with every `n_t ≥ 1`, the generator state after every call lies in
`[1, 2^31 - 2]` and every returned value `r_t` satisfies `0 ≤ r_t ≤ n_t - 1`. -/
theorem nextRand_sequence_range (ns : List Int) (h : ∀ n ∈ ns, 1 ≤ n) :
    List.Forall₂ (fun n p => 1 ≤ p.1 ∧ p.1 ≤ 2 ^ 31 - 2 ∧ 0 ≤ p.2 ∧ p.2 ≤ n - 1)
      ns (nextRandSeq 1 ns) :=
  nextRandSeq_range ns h 1 (by decide) (by decide)

theorem nextRand_sequence_range_witness :
    (∀ n ∈ [(1000 : Int), 7, 1], 1 ≤ n) ∧
    List.Forall₂ (fun n p => 1 ≤ p.1 ∧ p.1 ≤ 2 ^ 31 - 2 ∧ 0 ≤ p.2 ∧ p.2 ≤ n - 1)
      [(1000 : Int), 7, 1] (nextRandSeq 1 [1000, 7, 1]) :=
  ⟨by decide, nextRand_sequence_range [1000, 7, 1] (by decide)⟩

/-- C8. For every state `s` in `[1, 2^31 - 2]`, the new state computed by `nextRand` is
`16807*(s mod 127773) - 2836*(s div 127773)`, plus `2147483647` when that value is `≤ 0`; it
equals `(16807 * s) mod (2^31 - 1)`, and the value returned for `n ≥ 1` is that new state
modulo `n`. -/
theorem nextRand_refines_lehmer (s n : Int) (h1 : 1 ≤ s) (h2 : s ≤ 2 ^ 31 - 2) (hn : 1 ≤ n) :
    (nextRand s n).1
        = (if 16807 * (s % 127773) - 2836 * (s / 127773) ≤ 0
            then 16807 * (s % 127773) - 2836 * (s / 127773) + 2147483647
            else 16807 * (s % 127773) - 2836 * (s / 127773)) ∧
      (nextRand s n).1 = lehmer s ∧
      (nextRand s n).2 = lehmer s % n := by
  have h2' : s ≤ 2147483646 := by norm_num at h2; exact h2
  have hm := nextSeed_eq_mod s h1 h2'
  have hr := nextSeed_range s h1 h2'
  have hl : lehmer s = nextSeed s := by
    unfold lehmer; rw [hm]; norm_num
  refine ⟨?_, ?_, ?_⟩
  · rw [nextRand_fst]
    unfold nextSeed
    simp only [nextRandI_eq s h1]
    split_ifs <;> omega
  · rw [nextRand_fst, hl]
  · rw [nextRand_snd, hl, Int.tmod_eq_emod (by omega) (by omega)]

theorem nextRand_refines_lehmer_witness :
    (1 : Int) ≤ 16807 ∧ (16807 : Int) ≤ 2 ^ 31 - 2 ∧ (1 : Int) ≤ 1000 ∧
      (nextRand 16807 1000).1 = lehmer 16807 ∧ (nextRand 16807 1000).2 = lehmer 16807 % 1000 :=
  ⟨by decide, by decide, by decide,
    (nextRand_refines_lehmer 16807 1000 (by decide) (by decide) (by decide)).2⟩

/-! ## Tour length as a path cost -/

theorem foldl_add_eq_sum (g : Nat → Int) (l : List Nat) (init : Int) :
    l.foldl (fun t i => t + g i) init = init + (l.map g).sum := by
  induction l generalizing init with
  | nil => simp
  | cons a l ih => simp [ih, add_assoc]

theorem pathCost_eq_sum (cost : Nat → Nat → Int) (s : List Nat) :
    pathCost cost s
      = ((List.range' 1 (s.length - 1)).map
          (fun i => cost (s.getD (i - 1) 0) (s.getD i 0))).sum := by
  induction s with
  | nil => simp [pathCost]
  | cons x s ih =>
    cases s with
    | nil => simp [pathCost]
    | cons y r =>
      rw [pathCost, ih]
      have h1 : (x :: y :: r).length - 1 = (r.length) + 1 := by simp
      have h2 : (y :: r).length - 1 = r.length := by simp
      rw [h1, h2, List.range'_succ]
      simp only [List.map_cons, List.sum_cons]
      congr 1
      have h3 : List.range' (1 + 1) r.length = (List.range' 1 r.length).map (1 + ·) := by
        rw [List.map_add_range']
      rw [h3, List.map_map]
      congr 1
      apply List.map_congr_left
      intro i hi
      have hi1 : 1 ≤ i := by
        rw [List.mem_range'] at hi
        obtain ⟨k, _, rfl⟩ := hi
        omega
      obtain ⟨k, rfl⟩ : ∃ k, i = k + 1 := ⟨i - 1, by omega⟩
      simp [Nat.add_comm 1]

theorem length_eq_pathCost (cost : Nat → Nat → Int) (n : Nat) (s : List Nat)
    (hs : s.length = n) :
    length n s cost = pathCost cost s + cost (s.getD (n - 1) 0) (s.getD 0 0) := by
  unfold length
  simp only
  rw [foldl_add_eq_sum, pathCost_eq_sum, hs]
  simp

/-! ## Swaps and the reversal loop -/

theorem getD_append_cons (pre : List Nat) (u : Nat) (post : List Nat) :
    (pre ++ u :: post).getD pre.length 0 = u := by
  induction pre with
  | nil => rfl
  | cons a pre ih => simpa using ih

theorem set_append_cons (pre : List Nat) (u v : Nat) (post : List Nat) :
    (pre ++ u :: post).set pre.length v = pre ++ v :: post := by
  induction pre with
  | nil => rfl
  | cons a pre ih => simp

theorem swap_split (pre : List Nat) (u : Nat) (m : List Nat) (v : Nat) (post : List Nat) :
    swap (pre ++ u :: (m ++ v :: post)) pre.length (pre.length + 1 + m.length)
      = pre ++ v :: (m ++ u :: post) := by
  have e1 : pre ++ u :: (m ++ v :: post) = (pre ++ u :: m) ++ v :: post := by simp
  have e2 : pre.length + 1 + m.length = (pre ++ u :: m).length := by simp; omega
  unfold swap
  simp only
  rw [getD_append_cons pre u]
  conv_lhs => rw [e1, e2, getD_append_cons (pre ++ u :: m) v post]
  rw [← e1, set_append_cons pre u v, ]
  have e3 : pre ++ v :: (m ++ v :: post) = (pre ++ v :: m) ++ v :: post := by simp
  have e4 : (pre ++ u :: m).length = (pre ++ v :: m).length := by simp
  rw [e3, e4, set_append_cons]
  simp

theorem swap_self (s : List Nat) (x : Nat) : swap s x x = s := by
  unfold swap
  simp only
  rw [List.set_set]
  apply List.ext_getElem
  · simp
  · intro i h1 h2
    rw [List.getElem_set]
    split_ifs with h
    · subst h; simp [List.getElem?_eq_getElem h2]
    · rfl

theorem swap_comm (s : List Nat) (x y : Nat) : swap s x y = swap s y x := by
  by_cases h : x = y
  · subst h; rfl
  · unfold swap
    simp only
    rw [List.set_comm _ _ _ h]

theorem length_swap (s : List Nat) (x y : Nat) : (swap s x y).length = s.length := by
  simp [swap]

theorem exists_split (s : List Nat) (i : Nat) (h : i < s.length) :
    ∃ pre u post, s = pre ++ u :: post ∧ pre.length = i := by
  refine ⟨s.take i, s[i], s.drop (i + 1), ?_, ?_⟩
  · rw [← List.drop_eq_getElem_cons h, List.take_append_drop]
  · simp; omega

theorem exists_split2 (s : List Nat) (x y : Nat) (hxy : x < y) (hy : y < s.length) :
    ∃ pre u m v post, s = pre ++ u :: (m ++ v :: post) ∧ pre.length = x ∧
      pre.length + 1 + m.length = y := by
  obtain ⟨pre, u, rest, rfl, hpre⟩ := exists_split s x (by omega)
  have hr : y - x - 1 < rest.length := by
    simp at hy; omega
  obtain ⟨m, v, post, rfl, hm⟩ := exists_split rest (y - x - 1) hr
  exact ⟨pre, u, m, v, post, rfl, hpre, by omega⟩

theorem swap_perm (s : List Nat) (x y : Nat) (hx : x < s.length) (hy : y < s.length) :
    (swap s x y).Perm s := by
  have main : ∀ x y, x < y → y < s.length → (swap s x y).Perm s := by
    intro x y hxy hy
    obtain ⟨pre, u, m, v, post, rfl, h1, h2⟩ := exists_split2 s x y hxy hy
    rw [← h1, ← h2, swap_split]
    apply List.Perm.append_left
    have : (v :: (m ++ u :: post)).Perm (v :: u :: (m ++ post)) :=
      List.Perm.cons _ List.perm_middle
    refine this.trans ((List.Perm.swap u v _).trans ?_)
    exact List.Perm.cons _ List.perm_middle.symm
  rcases Nat.lt_trichotomy x y with h | h | h
  · exact main x y h hy
  · subst h; rw [swap_self]
  · rw [swap_comm]; exact main y x h hx


theorem length_reverseLoop (fuel n : Nat) (s : List Nat) (i j : Nat) :
    (reverseLoop fuel n s i j).length = s.length := by
  induction fuel generalizing s i j with
  | zero => rfl
  | succ f ih =>
    unfold reverseLoop
    split_ifs
    · rw [ih, length_swap]
    · rfl

theorem reverseLoop_perm (fuel n : Nat) (s : List Nat) (i j : Nat) (hn : 0 < n)
    (hs : s.length = n) : (reverseLoop fuel n s i j).Perm s := by
  induction fuel generalizing s i j with
  | zero => exact List.Perm.refl _
  | succ f ih =>
    unfold reverseLoop
    split_ifs
    · have hp := swap_perm s (i % n) (j % n) (by rw [hs]; exact Nat.mod_lt _ hn)
        (by rw [hs]; exact Nat.mod_lt _ hn)
      exact (ih _ _ _ (by rw [length_swap, hs])).trans hp
    · exact List.Perm.refl _

/-- The bound `j - i` on the iterations of the reversal loop is never reached: any larger
bound gives the same array. -/
theorem reverseLoop_fuel (n : Nat) (fuel : Nat) :
    ∀ (fuel' : Nat) (s : List Nat) (i j : Nat), j - i ≤ fuel → j - i ≤ fuel' →
      reverseLoop fuel n s i j = reverseLoop fuel' n s i j := by
  induction fuel with
  | zero =>
    intro fuel' s i j h _
    cases fuel' with
    | zero => rfl
    | succ f' =>
      unfold reverseLoop
      rw [if_neg (by omega)]
  | succ f ih =>
    intro fuel' s i j h h'
    cases fuel' with
    | zero =>
      unfold reverseLoop
      rw [if_neg (by omega)]
    | succ f' =>
      unfold reverseLoop
      split_ifs with hij
      · exact ih f' _ _ _ (by omega) (by omega)
      · rfl

/-- The loop reverses the segment `mid` when the segment does not wrap around. -/
theorem reverseLoop_split (n : Nat) (mid : List Nat) :
    ∀ (pre post : List Nat) (fuel : Nat), mid.length ≤ 2 * fuel + 1 →
      (pre ++ (mid ++ post)).length = n →
      reverseLoop fuel n (pre ++ (mid ++ post)) pre.length (pre.length + mid.length - 1)
        = pre ++ (mid.reverse ++ post) := by
  induction mid using List.bidirectionalRec with
  | nil =>
    intro pre post fuel _ _
    cases fuel with
    | zero => rfl
    | succ f =>
      unfold reverseLoop
      rw [if_neg (by simp)]
      rfl
  | singleton a =>
    intro pre post fuel _ _
    cases fuel with
    | zero => rfl
    | succ f =>
      unfold reverseLoop
      rw [if_neg (by simp)]
      rfl
  | cons_append a l b ih =>
    intro pre post fuel hf hn
    cases fuel with
    | zero => simp at hf
    | succ f =>
      have hlen : pre.length + (l.length + 2) + post.length = n := by
        simp at hn; omega
      unfold reverseLoop
      have hj : pre.length + (a :: (l ++ [b])).length - 1 = pre.length + 1 + l.length := by
        simp; omega
      rw [hj, if_pos (by omega), Nat.mod_eq_of_lt (by omega), Nat.mod_eq_of_lt (by omega)]
      have e1 : pre ++ (a :: (l ++ [b]) ++ post) = pre ++ a :: (l ++ b :: post) := by simp
      rw [e1, swap_split]
      have e2 : pre ++ b :: (l ++ a :: post) = (pre ++ [b]) ++ (l ++ a :: post) := by simp
      have e3 : pre.length + 1 = (pre ++ [b]).length := by simp
      rw [e2, e3, ih (pre ++ [b]) (a :: post) f (by simp at hf; omega) (by simp; omega)]
      simp

/-- The loop on a segment that ends at position `n`, which stands for position `0`. -/
theorem reverseLoop_wrap (n : Nat) (s0 : Nat) (A : List Nat) (b0 : Nat) (B : List Nat)
    (hn : (s0 :: (A ++ b0 :: B)).length = n) :
    reverseLoop (n - (A.length + 1)) n (s0 :: (A ++ b0 :: B)) (A.length + 1) n
      = b0 :: (A ++ s0 :: B.reverse) := by
  have hlen : A.length + B.length + 2 = n := by simp at hn; omega
  have hf : n - (A.length + 1) = B.length + 1 := by omega
  rw [hf]
  unfold reverseLoop
  rw [if_pos (by omega), Nat.mod_eq_of_lt (by omega), Nat.mod_self, swap_comm]
  have h1 := swap_split [] s0 A b0 B
  simp only [List.nil_append, List.length_nil, Nat.zero_add] at h1
  rw [Nat.add_comm 1] at h1
  rw [h1]
  have h2 := reverseLoop_split n B (b0 :: (A ++ [s0])) [] B.length (by omega) (by simp; omega)
  simp only [List.append_nil] at h2
  have e1 : b0 :: (A ++ [s0]) ++ B = b0 :: (A ++ s0 :: B) := by simp
  have e2 : (b0 :: (A ++ [s0])).length = A.length + 1 + 1 := by simp
  have e3 : A.length + 1 + 1 + B.length - 1 = n - 1 := by omega
  rw [e1, e2, e3] at h2
  rw [h2]
  simp

/-! ## Path costs and the scan -/

theorem pathCost_cons_cons (cost : Nat → Nat → Int) (x y : Nat) (r : List Nat) :
    pathCost cost (x :: y :: r) = cost x y + pathCost cost (y :: r) := rfl

theorem pathCost_append_cons (cost : Nat → Nat → Int) (X : List Nat) (u : Nat) (Y : List Nat) :
    pathCost cost (X ++ u :: Y) = pathCost cost (X ++ [u]) + pathCost cost (u :: Y) := by
  induction X with
  | nil => simp [pathCost]
  | cons a X ih =>
    cases X with
    | nil => simp [pathCost]
    | cons b X =>
      have e : ∀ Z, (a :: b :: X) ++ Z = a :: b :: (X ++ Z) := fun Z => rfl
      have e2 : ∀ Z, (b :: X) ++ Z = b :: (X ++ Z) := fun Z => rfl
      rw [e, e, pathCost_cons_cons, pathCost_cons_cons, ← e2, ← e2, ih]; ring

theorem pathCost_reverse (cost : Nat → Nat → Int) (n : Nat) (hsym : Symmetric n cost)
    (l : List Nat) (hl : ∀ x ∈ l, x < n) : pathCost cost l.reverse = pathCost cost l := by
  induction l with
  | nil => rfl
  | cons x l ih =>
    cases l with
    | nil => rfl
    | cons y r =>
      have ih' := ih (fun z hz => hl z (List.mem_cons_of_mem _ hz))
      have hx : x < n := hl x (List.mem_cons_self _ _)
      have hy : y < n := hl y (List.mem_cons_of_mem _ (List.mem_cons_self _ _))
      have e : (x :: y :: r).reverse = r.reverse ++ y :: [x] := by simp
      rw [e, pathCost_append_cons, pathCost_cons_cons]
      have e2 : r.reverse ++ [y] = (y :: r).reverse := by simp
      rw [e2, ih', pathCost_cons_cons, hsym y hy x hx]
      simp [pathCost]; ring

theorem pathCost_concat (cost : Nat → Nat → Int) (l : List Nat) (z : Nat) (hl : l ≠ []) :
    pathCost cost (l ++ [z]) = pathCost cost l + cost (l.getD (l.length - 1) 0) z := by
  obtain ⟨pre, u, post, rfl, hpre⟩ :=
    exists_split l (l.length - 1) (by cases l <;> simp at hl ⊢)
  have hpost : post = [] := by
    have : post.length = 0 := by
      simp only [List.length_append, List.length_cons] at hpre; omega
    exact List.length_eq_zero.mp this
  subst hpost
  have e : (pre ++ [u]).length - 1 = pre.length := by simp
  rw [e, getD_append_cons, List.append_assoc, List.singleton_append, pathCost_append_cons]
  simp [pathCost]

/-- The length of a tour is the cost of the closed path through its vertices. -/
theorem length_eq_closed (cost : Nat → Nat → Int) (n : Nat) (s : List Nat)
    (hs : s.length = n) (hn : 0 < n) :
    length n s cost = pathCost cost (s ++ [s.getD 0 0]) := by
  rw [length_eq_pathCost cost n s hs, pathCost_concat _ _ _ (by intro h; subst h; simp at hs; omega),
    hs]

theorem scan_eq_foldl (n : Nat) (s : List Nat) (cost : Nat → Nat → Int) :
    scan n s cost
      = (scanPairs n).foldl (fun acc p => scanStep n s cost p.1 acc p.2) (0, ⟨0, 0⟩) := by
  unfold scan scanPairs
  rw [List.flatMap_def, List.foldl_flatten, List.foldl_map]
  congr 1
  funext acc i
  unfold scanInner
  rw [List.foldl_map]

theorem mem_scanPairs (n i j : Nat) :
    (i, j) ∈ scanPairs n ↔ i < n ∧ i + 2 ≤ j ∧ j ≤ n := by
  unfold scanPairs
  simp only [List.mem_flatMap, List.mem_range, List.mem_map, List.mem_range'_1, Prod.mk.injEq]
  constructor
  · rintro ⟨a, ha, b, hb, rfl, rfl⟩
    omega
  · rintro ⟨h1, h2, h3⟩
    exact ⟨i, h1, j, by omega, rfl, rfl⟩

/-- After the fold, the accumulator is the initial one or was set at a pair of the list. -/
theorem foldl_scanStep_attained (n : Nat) (s : List Nat) (cost : Nat → Nat → Int)
    (l : List (Nat × Nat)) (acc : Int × Pair) :
    l.foldl (fun acc p => scanStep n s cost p.1 acc p.2) acc = acc ∨
      ∃ p ∈ l, l.foldl (fun acc p => scanStep n s cost p.1 acc p.2) acc
        = (benefit n s cost p.1 p.2, ⟨p.1 + 1, p.2⟩) ∧ acc.1 < benefit n s cost p.1 p.2 := by
  induction l generalizing acc with
  | nil => exact Or.inl rfl
  | cons q l ih =>
    simp only [List.foldl_cons]
    rcases ih (scanStep n s cost q.1 acc q.2) with h | ⟨p, hp, h1, h2⟩
    · rw [h]
      unfold scanStep
      simp only
      split_ifs with hb
      · exact Or.inr ⟨q, List.mem_cons_self _ _, rfl, hb⟩
      · exact Or.inl rfl
    · refine Or.inr ⟨p, List.mem_cons_of_mem _ hp, h1, lt_of_le_of_lt ?_ h2⟩
      unfold scanStep
      simp only
      split_ifs with hb
      · exact le_of_lt hb
      · exact le_refl _

theorem scan_attained (n : Nat) (s : List Nat) (cost : Nat → Nat → Int)
    (h : (scan n s cost).1 ≠ 0) :
    ∃ i j, i < n ∧ i + 2 ≤ j ∧ j ≤ n ∧ 0 < benefit n s cost i j ∧
      scan n s cost = (benefit n s cost i j, ⟨i + 1, j⟩) := by
  rw [scan_eq_foldl] at h ⊢
  rcases foldl_scanStep_attained n s cost (scanPairs n) (0, ⟨0, 0⟩) with h0 | ⟨p, hp, h1, h2⟩
  · rw [h0] at h; exact absurd rfl h
  · obtain ⟨i, j⟩ := p
    obtain ⟨a, b, c⟩ := (mem_scanPairs n i j).mp hp
    exact ⟨i, j, a, b, c, h2, h1⟩

/-- A 2-opt exchange on a path: reversing the inner part `q :: M ++ [r]` between `p` and
`x0` replaces the edges `(p, q)`, `(r, x0)` by `(p, r)`, `(q, x0)`. -/
theorem pathCost_two_opt (cost : Nat → Nat → Int) (n : Nat) (hsym : Symmetric n cost)
    (P : List Nat) (p q : Nat) (M : List Nat) (r x0 : Nat) (X : List Nat)
    (hb : ∀ x ∈ q :: (M ++ [r]), x < n) :
    pathCost cost (P ++ p :: ((q :: (M ++ [r])).reverse ++ x0 :: X))
      = pathCost cost (P ++ p :: q :: (M ++ r :: x0 :: X))
        - (cost p q + cost r x0 - cost p r - cost q x0) := by
  have hrev := pathCost_reverse cost n hsym (q :: (M ++ [r])) hb
  have hA := pathCost_append_cons cost P p (r :: (M.reverse ++ q :: x0 :: X))
  have hB := pathCost_append_cons cost P p (q :: (M ++ r :: x0 :: X))
  have hC := pathCost_append_cons cost (r :: M.reverse) q (x0 :: X)
  have hD := pathCost_append_cons cost (q :: M) r (x0 :: X)
  simp only [List.reverse_cons, List.reverse_append, List.append_assoc, List.cons_append,
    List.nil_append, List.reverse_nil, pathCost_cons_cons] at hrev hA hB hC hD ⊢
  linarith

/-! ## The effect of one 2-opt move on the length -/

theorem IsTour.length_eq {n : Nat} {s : List Nat} (h : IsTour n s) : s.length = n := by
  have := List.Perm.length_eq h
  simpa using this

theorem IsTour.lt {n : Nat} {s : List Nat} (h : IsTour n s) : ∀ x ∈ s, x < n := by
  intro x hx
  exact List.mem_range.mp ((List.Perm.mem_iff h).mp hx)

theorem IsTour.nodup {n : Nat} {s : List Nat} (h : IsTour n s) : s.Nodup :=
  (List.Perm.nodup_iff h).mpr (List.nodup_range n)

/-- The benefit of the pair `(i, j)` read on a tour split around positions `i`, `i+1`, `j`
with `j < n`. -/
theorem benefit_split (cost : Nat → Nat → Int) (n : Nat) (P : List Nat) (p q : Nat)
    (M : List Nat) (r : Nat) (T : List Nat)
    (hn : (P ++ p :: q :: (M ++ r :: T)).length = n) :
    benefit n (P ++ p :: q :: (M ++ r :: T)) cost P.length (P.length + 2 + M.length)
      = cost p q + cost r ((T ++ [(P ++ [p]).getD 0 0]).getD 0 0)
        - cost p r - cost q ((T ++ [(P ++ [p]).getD 0 0]).getD 0 0) := by
  have hlen : P.length + M.length + T.length + 3 = n := by
    simp only [List.length_append, List.length_cons] at hn; omega
  have g1 : (P ++ p :: q :: (M ++ r :: T)).getD P.length 0 = p := getD_append_cons P p _
  have g2 : (P ++ p :: q :: (M ++ r :: T)).getD (P.length + 1) 0 = q := by
    have := getD_append_cons (P ++ [p]) q (M ++ r :: T)
    simpa using this
  have g3 : (P ++ p :: q :: (M ++ r :: T)).getD (P.length + 2 + M.length) 0 = r := by
    have := getD_append_cons (P ++ p :: q :: M) r T
    simp only [List.length_append, List.length_cons, List.append_assoc, List.cons_append] at this
    rw [show P.length + 2 + M.length = P.length + (M.length + 1 + 1) by omega]
    exact this
  have g4 : (P ++ p :: q :: (M ++ r :: T)).getD ((P.length + 2 + M.length + 1) % n) 0
      = (T ++ [(P ++ [p]).getD 0 0]).getD 0 0 := by
    cases T with
    | nil =>
      have : P.length + 2 + M.length + 1 = n := by simp at hlen; omega
      rw [this, Nat.mod_self]
      cases P <;> rfl
    | cons t T =>
      have hl : P.length + 2 + M.length + 1 < n := by simp at hlen; omega
      rw [Nat.mod_eq_of_lt hl]
      have := getD_append_cons (P ++ p :: q :: (M ++ [r])) t T
      simp only [List.length_append, List.length_cons, List.append_assoc, List.cons_append,
        List.length_nil, List.nil_append] at this
      rw [show P.length + 2 + M.length + 1 = P.length + (M.length + (0 + 1) + 1 + 1) by omega]
      simpa using this
  unfold benefit
  rw [Nat.mod_eq_of_lt (show P.length + 1 < n by omega),
    Nat.mod_eq_of_lt (show P.length + 2 + M.length < n by omega), g1, g2, g3, g4]

/-- Reversing the positions `i+1..j` of a tour, `j < n`, shortens it by the benefit of
`(i, j)`. -/
theorem length_two_opt (cost : Nat → Nat → Int) (n : Nat) (hsym : Symmetric n cost)
    (P : List Nat) (p q : Nat) (M : List Nat) (r : Nat) (T : List Nat)
    (hn : (P ++ p :: q :: (M ++ r :: T)).length = n)
    (hb : ∀ x ∈ P ++ p :: q :: (M ++ r :: T), x < n) :
    length n (P ++ p :: ((q :: (M ++ [r])).reverse ++ T)) cost
      = length n (P ++ p :: q :: (M ++ r :: T)) cost
        - benefit n (P ++ p :: q :: (M ++ r :: T)) cost P.length (P.length + 2 + M.length) := by
  have hpos : 0 < n := by
    simp only [List.length_append, List.length_cons] at hn; omega
  have hn' : (P ++ p :: ((q :: (M ++ [r])).reverse ++ T)).length = n := by
    simp only [List.length_append, List.length_cons, List.length_reverse, List.length_nil]
      at hn ⊢
    omega
  rw [length_eq_closed cost n _ hn hpos, length_eq_closed cost n _ hn' hpos,
    benefit_split cost n P p q M r T hn]
  have h0 : (P ++ p :: ((q :: (M ++ [r])).reverse ++ T)).getD 0 0 = (P ++ [p]).getD 0 0 := by
    cases P <;> rfl
  have h0' : (P ++ p :: q :: (M ++ r :: T)).getD 0 0 = (P ++ [p]).getD 0 0 := by
    cases P <;> rfl
  rw [h0, h0']
  generalize (P ++ [p]).getD 0 0 = g
  obtain ⟨x0, X, hX⟩ : ∃ x0 X, T ++ [g] = x0 :: X := by
    cases T with
    | nil => exact ⟨g, [], rfl⟩
    | cons t T => exact ⟨t, T ++ [g], rfl⟩
  have hmid : ∀ x ∈ q :: (M ++ [r]), x < n := by
    intro x hx
    apply hb
    simp only [List.mem_cons, List.mem_append, List.mem_singleton, List.not_mem_nil,
      or_false] at hx ⊢
    tauto
  have key := pathCost_two_opt cost n hsym P p q M r x0 X hmid
  have e1 : P ++ p :: ((q :: (M ++ [r])).reverse ++ T) ++ [g]
      = P ++ p :: ((q :: (M ++ [r])).reverse ++ x0 :: X) := by
    rw [← hX]; simp
  have e2 : P ++ p :: q :: (M ++ r :: T) ++ [g] = P ++ p :: q :: (M ++ r :: x0 :: X) := by
    rw [← hX]; simp
  rw [e1, e2, key, hX]
  rfl

/-- The benefit of the pair `(i, n)`, `i ≥ 1`, read on a tour split around positions `0`,
`i` and `i+1`. -/
theorem benefit_wrap (cost : Nat → Nat → Int) (n : Nat) (s0 x : Nat) (A : List Nat)
    (b0 : Nat) (B : List Nat) (hn : (s0 :: (x :: A ++ b0 :: B)).length = n) :
    benefit n (s0 :: (x :: A ++ b0 :: B)) cost (x :: A).length n
      = cost ((x :: A).getD A.length 0) b0 + cost s0 x
        - cost ((x :: A).getD A.length 0) s0 - cost b0 x := by
  have hlen : A.length + B.length + 3 = n := by
    simp only [List.length_append, List.length_cons] at hn; omega
  have g1 : (s0 :: (x :: A ++ b0 :: B)).getD (x :: A).length 0 = (x :: A).getD A.length 0 := by
    simp only [List.length_cons, List.getD_cons_succ]
    rw [List.getD_append _ _ _ _ (by simp)]
  have g2 : (s0 :: (x :: A ++ b0 :: B)).getD ((x :: A).length + 1) 0 = b0 := by
    have := getD_append_cons (s0 :: x :: A) b0 B
    simpa using this
  have g3 : (s0 :: (x :: A ++ b0 :: B)).getD 0 0 = s0 := rfl
  have g4 : (s0 :: (x :: A ++ b0 :: B)).getD 1 0 = x := rfl
  have m1 : ((x :: A).length + 1) % n = (x :: A).length + 1 :=
    Nat.mod_eq_of_lt (by simp only [List.length_cons]; omega)
  have m2 : (n + 1) % n = 1 := by
    rw [Nat.add_mod, Nat.mod_self, Nat.zero_add, Nat.mod_mod, Nat.mod_eq_of_lt (by omega)]
  unfold benefit
  rw [m1, m2, Nat.mod_self, g1, g2, g3, g4]

/-- Reversing the positions `i+1..n` of a tour, where `n` stands for `0` and `i ≥ 1`, shortens
it by the benefit of `(i, n)`. -/
theorem length_two_opt_wrap (cost : Nat → Nat → Int) (n : Nat) (hsym : Symmetric n cost)
    (s0 x : Nat) (A : List Nat) (b0 : Nat) (B : List Nat)
    (hn : (s0 :: (x :: A ++ b0 :: B)).length = n)
    (hb : ∀ z ∈ s0 :: (x :: A ++ b0 :: B), z < n) :
    length n (b0 :: (x :: A ++ s0 :: B.reverse)) cost
      = length n (s0 :: (x :: A ++ b0 :: B)) cost
        - benefit n (s0 :: (x :: A ++ b0 :: B)) cost (x :: A).length n := by
  have hpos : 0 < n := by
    simp only [List.length_append, List.length_cons] at hn; omega
  have hn' : (b0 :: (x :: A ++ s0 :: B.reverse)).length = n := by
    simp only [List.length_append, List.length_cons, List.length_reverse] at hn ⊢
    omega
  rw [length_eq_closed cost n _ hn hpos, length_eq_closed cost n _ hn' hpos,
    benefit_wrap cost n s0 x A b0 B hn]
  have hs0 : s0 < n := hb s0 (List.mem_cons_self _ _)
  have hx : x < n := hb x (by simp)
  have hb0 : b0 < n := hb b0 (by simp)
  have hy : (x :: A).getD A.length 0 < n := by
    apply hb
    rw [List.getD_eq_getElem _ _ (by simp)]
    exact List.mem_cons_of_mem _ (List.mem_append_left _ (List.getElem_mem _))
  have hrevb : ∀ z ∈ b0 :: (B ++ [s0]), z < n := by
    intro z hz
    apply hb
    simp only [List.mem_cons, List.mem_append, List.mem_singleton, List.not_mem_nil,
      or_false] at hz ⊢
    tauto
  have hrev := pathCost_reverse cost n hsym (b0 :: (B ++ [s0])) hrevb
  have hA := pathCost_append_cons cost (s0 :: x :: A) b0 (B ++ [s0])
  have hB := pathCost_append_cons cost (b0 :: x :: A) s0 (B.reverse ++ [b0])
  have hC := pathCost_concat cost (x :: A) b0 (by simp)
  have hD := pathCost_concat cost (x :: A) s0 (by simp)
  have hl : (x :: A).length - 1 = A.length := by simp
  rw [hl] at hC hD
  have s1 := hsym b0 hb0 x hx
  have s2 := hsym _ hy s0 hs0
  simp only [List.reverse_cons, List.reverse_append, List.append_assoc, List.cons_append,
    List.nil_append, List.reverse_nil, pathCost_cons_cons, List.getD_cons_zero]
    at hrev hA hB hC hD ⊢
  linarith

/-- The pair `(0, n)` never has a positive benefit on a tour: both of its edges are the
edge between positions `0` and `1`, and the diagonal entries dominate. -/
theorem benefit_zero_wrap_neg (cost : Nat → Nat → Int) (n : Nat) (s : List Nat)
    (hdiag : DiagLarger n cost) (hs : IsTour n s) (hn : 2 ≤ n) :
    benefit n s cost 0 n < 0 := by
  have hlen := hs.length_eq
  obtain ⟨a, b, r, rfl⟩ : ∃ a b r, s = a :: b :: r := by
    match s, hlen with
    | a :: b :: r, _ => exact ⟨a, b, r, rfl⟩
    | [_], h => simp at h; omega
    | [], h => simp at h; omega
  have ha : a < n := hs.lt a (by simp)
  have hb : b < n := hs.lt b (by simp)
  have hab : a ≠ b := by
    have := hs.nodup
    simp only [List.nodup_cons, List.mem_cons, not_or] at this
    exact this.1.1
  have m1 : (0 + 1) % n = 1 := Nat.mod_eq_of_lt (by omega)
  have m2 : (n + 1) % n = 1 := by
    rw [Nat.add_mod, Nat.mod_self, Nat.zero_add, Nat.mod_mod, Nat.mod_eq_of_lt (by omega)]
  unfold benefit
  rw [m1, m2, Nat.mod_self]
  simp only [List.getD_cons_zero, List.getD_cons_succ]
  have h1 := hdiag a ha a ha b hb hab
  have h2 := hdiag b hb a ha b hb hab
  linarith

/-! ## One pass of the local search -/

theorem greedyPass_eq_none (total : Int) (n : Nat) (s : List Nat) (cost : Nat → Nat → Int) :
    greedyPass total n s cost = none ↔ (scan n s cost).1 = 0 := by
  unfold greedyPass
  simp only
  split_ifs with h <;> simp [h]

theorem greedyPass_eq_some (total : Int) (n : Nat) (s : List Nat) (cost : Nat → Nat → Int)
    (t' : Int) (s' : List Nat) (h : greedyPass total n s cost = some (t', s')) :
    ∃ i j, i < n ∧ i + 2 ≤ j ∧ j ≤ n ∧ 0 < benefit n s cost i j ∧
      (scan n s cost).1 = benefit n s cost i j ∧
      t' = total - benefit n s cost i j ∧ s' = reverseLoop (j - (i + 1)) n s (i + 1) j := by
  unfold greedyPass at h
  simp only at h
  split_ifs at h with h0
  obtain ⟨i, j, hi, hij, hj, hpos, hscan⟩ := scan_attained n s cost h0
  rw [hscan] at h
  simp only [Option.some.injEq, Prod.mk.injEq] at h
  exact ⟨i, j, hi, hij, hj, hpos, by rw [hscan], h.1.symm, h.2.symm⟩

/-- A pass keeps the array a permutation, whatever the cost matrix. -/
theorem greedyPass_perm (total : Int) (n : Nat) (s : List Nat) (cost : Nat → Nat → Int)
    (hn : 0 < n) (hs : IsTour n s) (t' : Int) (s' : List Nat)
    (h : greedyPass total n s cost = some (t', s')) : IsTour n s' ∧ s'.Perm s := by
  obtain ⟨i, j, -, -, -, -, -, -, rfl⟩ := greedyPass_eq_some total n s cost t' s' h
  have hp := reverseLoop_perm (j - (i + 1)) n s (i + 1) j hn hs.length_eq
  exact ⟨hp.trans hs, hp⟩

/-- The reversal of positions `i+1..j` by the loop of `greedyLS` shortens a tour by the
benefit of the pair `(i, j)`, for every examined pair except `(0, n)`. -/
theorem tourLength_reverseLoop (cost : Nat → Nat → Int) (n : Nat) (hsym : Symmetric n cost)
    (s : List Nat) (hs : IsTour n s) (i j : Nat) (hi : i < n) (hij : i + 2 ≤ j) (hj : j ≤ n)
    (hne : ¬ (i = 0 ∧ j = n)) :
    length n (reverseLoop (j - (i + 1)) n s (i + 1) j) cost
      = length n s cost - benefit n s cost i j := by
  have hlen := hs.length_eq
  rcases Nat.lt_or_ge j n with hjn | hjn
  · obtain ⟨P, p, m, r, T, rfl, h1, h2⟩ := exists_split2 s i j (by omega) (by omega)
    obtain ⟨q, M, rfl⟩ : ∃ q M, m = q :: M := by
      cases m with
      | nil => simp at h2; omega
      | cons q M => exact ⟨q, M, rfl⟩
    have hj' : j = P.length + 2 + M.length := by simp at h2; omega
    subst hj'
    subst h1
    have e : P ++ p :: (q :: M ++ r :: T) = (P ++ [p]) ++ (q :: (M ++ [r]) ++ T) := by simp
    have e' : P ++ p :: (q :: M ++ r :: T) = P ++ p :: q :: (M ++ r :: T) := by simp
    have hrl := reverseLoop_split n (q :: (M ++ [r])) (P ++ [p]) T
      (P.length + 2 + M.length - (P.length + 1)) (by simp; omega) (by rw [← e]; exact hlen)
    rw [← e] at hrl
    have i1 : (P ++ [p]).length = P.length + 1 := by simp
    have i2 : (P ++ [p]).length + (q :: (M ++ [r])).length - 1 = P.length + 2 + M.length := by
      simp; omega
    rw [i1] at i2
    rw [i1, i2] at hrl
    rw [hrl, e']
    have := length_two_opt cost n hsym P p q M r T (by rw [← e']; exact hlen)
      (by rw [← e']; exact hs.lt)
    rw [← this]
    simp
  · have hjn' : j = n := by omega
    rw [hjn'] at hij ⊢
    have hi0 : 1 ≤ i := by
      rcases Nat.eq_zero_or_pos i with h0 | h0
      · exact absurd ⟨h0, hjn'⟩ hne
      · exact h0
    obtain ⟨pre, b0, B, rfl, hpre⟩ := exists_split s (i + 1) (by omega)
    obtain ⟨s0, x, A, rfl⟩ : ∃ s0 x A, pre = s0 :: x :: A := by
      match pre, hpre with
      | s0 :: x :: A, _ => exact ⟨s0, x, A, rfl⟩
      | [_], h => simp at h; omega
      | [], h => simp at h
    have hi' : i = (x :: A).length := by simp at hpre ⊢; omega
    subst hi'
    have e : s0 :: x :: A ++ b0 :: B = s0 :: (x :: A ++ b0 :: B) := by simp
    rw [e] at hlen hs ⊢
    have hw := reverseLoop_wrap n s0 (x :: A) b0 B hlen
    rw [hw]
    exact length_two_opt_wrap cost n hsym s0 x A b0 B hlen hs.lt

/-- One pass that applies a move, on a valid instance: the array stays a tour and its length
decreases by exactly the amount subtracted from `total`, which is positive. -/
theorem greedyPass_spec (cost : Nat → Nat → Int) (n : Nat) (hsym : Symmetric n cost)
    (hdiag : DiagLarger n cost) (total : Int) (s : List Nat) (hs : IsTour n s)
    (t' : Int) (s' : List Nat) (h : greedyPass total n s cost = some (t', s')) :
    IsTour n s' ∧ t' < total ∧ length n s' cost - t' = length n s cost - total := by
  obtain ⟨i, j, hi, hij, hj, hpos, -, rfl, hs'⟩ := greedyPass_eq_some total n s cost t' s' h
  have hp := (greedyPass_perm total n s cost (by omega) hs _ s' h).1
  have hne : ¬ (i = 0 ∧ j = n) := by
    rintro ⟨rfl, rfl⟩
    have := benefit_zero_wrap_neg cost j s hdiag hs (by omega)
    omega
  have hl := tourLength_reverseLoop cost n hsym s hs i j hi hij hj hne
  rw [← hs'] at hl
  refine ⟨hp, by omega, by omega⟩

/-! ## Runs of the local search -/

theorem greedyLS_succ (fuel : Nat) (total : Int) (n : Nat) (s : List Nat)
    (cost : Nat → Nat → Int) :
    greedyLS (fuel + 1) total n s cost
      = match greedyPass total n s cost with
        | none => some (total, s)
        | some (total, solution) => greedyLS fuel total n solution cost := rfl

/-- On return the array is a rearrangement of the input, whatever the cost matrix. -/
theorem greedyLS_perm (cost : Nat → Nat → Int) (n : Nat) (hn : 0 < n) (fuel : Nat) :
    ∀ (total : Int) (s : List Nat) (t' : Int) (s' : List Nat), IsTour n s →
      greedyLS fuel total n s cost = some (t', s') → IsTour n s' ∧ s'.Perm s := by
  induction fuel with
  | zero => intro total s t' s' _ h; simp [greedyLS] at h
  | succ f ih =>
    intro total s t' s' hs h
    rw [greedyLS_succ] at h
    cases hp : greedyPass total n s cost with
    | none =>
      rw [hp] at h
      simp only [Option.some.injEq, Prod.mk.injEq] at h
      rw [← h.2]
      exact ⟨hs, List.Perm.refl _⟩
    | some x =>
      obtain ⟨t1, s1⟩ := x
      rw [hp] at h
      have h1 := greedyPass_perm total n s cost hn hs t1 s1 hp
      have h2 := ih t1 s1 t' s' h1.1 h
      exact ⟨h2.1, h2.2.trans h1.2⟩

/-- On a valid instance, the result of `greedyLS` is a tour on which the scan finds no
positive benefit, and the gap between `total` and the true length is unchanged. -/
theorem greedyLS_spec (cost : Nat → Nat → Int) (n : Nat) (hsym : Symmetric n cost)
    (hdiag : DiagLarger n cost) (fuel : Nat) :
    ∀ (total : Int) (s : List Nat) (t' : Int) (s' : List Nat), IsTour n s →
      greedyLS fuel total n s cost = some (t', s') →
      IsTour n s' ∧ (scan n s' cost).1 = 0 ∧ t' ≤ total ∧
        length n s' cost - t' = length n s cost - total := by
  induction fuel with
  | zero => intro total s t' s' _ h; simp [greedyLS] at h
  | succ f ih =>
    intro total s t' s' hs h
    rw [greedyLS_succ] at h
    cases hp : greedyPass total n s cost with
    | none =>
      rw [hp] at h
      simp only [Option.some.injEq, Prod.mk.injEq] at h
      rw [← h.1, ← h.2]
      exact ⟨hs, (greedyPass_eq_none total n s cost).mp hp, le_refl _, rfl⟩
    | some x =>
      obtain ⟨t1, s1⟩ := x
      rw [hp] at h
      have h1 := greedyPass_spec cost n hsym hdiag total s hs t1 s1 hp
      have h2 := ih t1 s1 t' s' h1.1 h
      exact ⟨h2.1, h2.2.1, by omega, by omega⟩

/-- Reading a tour backwards does not change its length. -/
theorem length_reverse (cost : Nat → Nat → Int) (n : Nat) (hsym : Symmetric n cost)
    (s : List Nat) (hs : s.length = n) (hb : ∀ x ∈ s, x < n) :
    length n s.reverse cost = length n s cost := by
  rcases Nat.eq_zero_or_pos n with h0 | hn
  · have : s = [] := List.length_eq_zero.mp (by omega)
    subst this; rfl
  rw [length_eq_closed cost n s hs hn,
    length_eq_closed cost n s.reverse (by rw [List.length_reverse]; exact hs) hn]
  have hrev := pathCost_reverse cost n hsym (s ++ [s.getD 0 0]) (by
    intro x hx
    rcases List.mem_append.mp hx with h | h
    · exact hb x h
    · rw [List.mem_singleton] at h
      rw [h, List.getD_eq_getElem _ _ (by omega)]
      exact hb _ (List.getElem_mem _))
  rw [← hrev]
  induction s using List.bidirectionalRec with
  | nil => rfl
  | singleton a => rfl
  | cons_append h r z _ =>
    have hA := pathCost_append_cons cost (z :: r.reverse) h [z]
    have hB := pathCost_append_cons cost (h :: r.reverse) z [h]
    have hR := pathCost_reverse cost n hsym (z :: (r.reverse ++ [h])) (by
      intro x hx
      apply hb
      simp only [List.mem_cons, List.mem_append, List.mem_singleton, List.mem_reverse,
        List.not_mem_nil, or_false] at hx ⊢
      tauto)
    have hS := hsym h (hb h (by simp)) z (hb z (by simp))
    have hC := pathCost_append_cons cost (h :: r) z [h]
    have hD := pathCost_reverse cost n hsym ((h :: r) ++ [z]) (by
      intro x hx
      apply hb
      simpa using hx)
    simp only [List.reverse_cons, List.reverse_append, List.append_assoc, List.cons_append,
      List.nil_append, List.reverse_nil, pathCost_cons_cons, List.getD_cons_zero,
      List.reverse_reverse, List.singleton_append, pathCost]
      at hA hB hR hC hD ⊢
    linarith

/-- C1. Cost consistency of `greedyLS`: for `n ≥ 1`, a symmetric cost matrix whose diagonal
entries are strictly larger than every off-diagonal entry and a tour that is a permutation
of `[0, n-1]`, if the argument `total` equals `length(n, solution, cost)` then, whenever
`greedyLS` returns, the returned total equals `length` recomputed on the final tour. -/
theorem greedyLS_cost_consistent (n : Nat) (_hn : 1 ≤ n) (cost : Nat → Nat → Int)
    (hsym : Symmetric n cost) (hdiag : DiagLarger n cost) (solution : List Nat)
    (hs : IsTour n solution) (total : Int) (htotal : total = length n solution cost)
    (fuel : Nat) (total' : Int) (solution' : List Nat)
    (h : greedyLS fuel total n solution cost = some (total', solution')) :
    total' = length n solution' cost := by
  have := (greedyLS_spec cost n hsym hdiag fuel total solution total' solution' hs h).2.2.2
  omega

theorem greedyLS_cost_consistent_witness :
    Symmetric 4 quadCost ∧ DiagLarger 4 quadCost ∧ IsTour 4 [0, 2, 1, 3] ∧
      (48 : Int) = length 4 [0, 2, 1, 3] quadCost ∧
      greedyLS 2 48 4 [0, 2, 1, 3] quadCost = some (40, [0, 1, 2, 3]) ∧
      (40 : Int) = length 4 [0, 1, 2, 3] quadCost :=
  ⟨by unfold Symmetric; decide, by unfold DiagLarger; decide, by unfold IsTour; decide,
    by decide, by decide,
    greedyLS_cost_consistent 4 (by decide) quadCost (by unfold Symmetric; decide)
      (by unfold DiagLarger; decide) [0, 2, 1, 3] (by unfold IsTour; decide) 48 (by decide)
      2 40 [0, 1, 2, 3] (by decide)⟩

/-- C4. `greedyLS` keeps the permutation invariant: for `n ≥ 1`, every cost matrix and every
input tour that is a permutation of `[0, n-1]`, the tour after an applied 2-opt move, and
hence the tour on return, is again a permutation of `[0, n-1]` and a rearrangement of the
input. -/
theorem greedyLS_keeps_permutation (n : Nat) (hn : 1 ≤ n) (cost : Nat → Nat → Int)
    (solution : List Nat) (hs : IsTour n solution) (total : Int) :
    (∀ total' solution', greedyPass total n solution cost = some (total', solution') →
        IsTour n solution' ∧ solution'.Perm solution) ∧
      (∀ fuel total' solution',
        greedyLS fuel total n solution cost = some (total', solution') →
        IsTour n solution' ∧ solution'.Perm solution) :=
  ⟨fun total' solution' h => greedyPass_perm total n solution cost hn hs total' solution' h,
    fun fuel total' solution' h =>
      greedyLS_perm cost n hn fuel total solution total' solution' hs h⟩

theorem greedyLS_keeps_permutation_witness :
    IsTour 4 [0, 2, 1, 3] ∧
      greedyPass 48 4 [0, 2, 1, 3] quadCost = some (40, [0, 1, 2, 3]) ∧
      IsTour 4 [0, 1, 2, 3] ∧ [0, 1, 2, 3].Perm [0, 2, 1, 3] :=
  ⟨by unfold IsTour; decide, by decide,
    (greedyLS_keeps_permutation 4 (by decide) quadCost [0, 2, 1, 3]
      (by unfold IsTour; decide) 48).1 40 [0, 1, 2, 3] (by decide)⟩

/-! ## Random tour construction: returned cost -/

theorem genStep_sol_getD (cost : Nat → Nat → Int) (st : TourGen) (a x : Nat) (hx : x ≠ a) :
    (genStep cost st a).sol.getD x 0 = st.sol.getD x 0 := by
  unfold genStep
  simp only [List.getD_eq_getElem?_getD]
  rw [List.getElem?_set_ne (Ne.symm hx)]

theorem genStep_total (cost : Nat → Nat → Int) (st : TourGen) (a : Nat) :
    (genStep cost st a).total
      = st.total + cost ((genStep cost st a).sol.getD (a - 1) 0)
          ((genStep cost st a).sol.getD a 0) := rfl

/-- The loop of `generateRandomTour` from index `a`: cells below `a` are left alone, and
`total` grows by the cost of the edges that end at the cells written. -/
theorem genLoop_total (cost : Nat → Nat → Int) (m : Nat) :
    ∀ (a : Nat) (st : TourGen), 1 ≤ a →
      (∀ x < a, ((List.range' a m).foldl (genStep cost) st).sol.getD x 0 = st.sol.getD x 0) ∧
      ((List.range' a m).foldl (genStep cost) st).total
        = st.total + ((List.range' a m).map (fun k =>
            cost (((List.range' a m).foldl (genStep cost) st).sol.getD (k - 1) 0)
              (((List.range' a m).foldl (genStep cost) st).sol.getD k 0))).sum := by
  induction m with
  | zero => intro a st _; simp
  | succ m ih =>
    intro a st ha
    rw [List.range'_succ, List.foldl_cons]
    obtain ⟨h1, h2⟩ := ih (a + 1) (genStep cost st a) (by omega)
    constructor
    · intro x hx
      rw [h1 x (by omega), genStep_sol_getD cost st a x (by omega)]
    · rw [h2, List.map_cons, List.sum_cons, h1 (a - 1) (by omega), h1 a (by omega),
        genStep_total]
      ring

theorem generateRandomTour_total (iseed : Int) (n : Nat) (cost : Nat → Nat → Int)
    (sol : List Nat) :
    (generateRandomTour iseed n cost sol).2.1
      = length n (generateRandomTour iseed n cost sol).2.2 cost := by
  unfold generateRandomTour length
  simp only
  rw [foldl_add_eq_sum, (genLoop_total cost (n - 1) 1 _ (le_refl _)).2]

/-! ## Random tour construction: permutation -/

theorem take_set_succ (s : List Nat) (i v : Nat) (hi : i < s.length) :
    (s.set i v).take (i + 1) = s.take i ++ [v] := by
  obtain ⟨A, u, B, rfl, hA⟩ := exists_split s i hi
  subst hA
  rw [set_append_cons]
  have e : A ++ v :: B = (A ++ [v]) ++ B := by simp
  have l : A.length + 1 = (A ++ [v]).length := by simp
  rw [e, l, List.take_left]
  simp

/-- Drawing the candidate at index `j` among the first `nb` and moving the last one into its
place leaves the other `nb - 1` candidates. -/
theorem take_swap_remove (C : List Nat) (nb j : Nat) (hnb : nb ≤ C.length) (hj : j < nb) :
    (C.getD j 0 :: (C.set j (C.getD (nb - 1) 0)).take (nb - 1)).Perm (C.take nb) := by
  obtain ⟨D, z, rest, rfl, hD⟩ := exists_split C (nb - 1) (by omega)
  have hz : (D ++ z :: rest).getD (nb - 1) 0 = z := by rw [← hD]; exact getD_append_cons D z rest
  have htake : (D ++ z :: rest).take nb = D ++ [z] := by
    have : nb = D.length + 1 := by omega
    rw [this, List.take_append_eq_append_take]
    simp
  rw [hz, htake]
  rcases Nat.eq_or_lt_of_le (show j ≤ nb - 1 by omega) with h | h
  · have hj' : j = D.length := by omega
    rw [hj', getD_append_cons, set_append_cons, ← hD, List.take_left]
    exact (List.perm_append_singleton z D).symm
  · obtain ⟨X, c, Y, rfl, hX⟩ := exists_split D j (by omega)
    subst hX
    have e1 : (X ++ c :: Y) ++ z :: rest = X ++ c :: (Y ++ z :: rest) := by simp
    rw [e1, getD_append_cons, set_append_cons]
    have hlen : nb - 1 = (X ++ z :: Y).length := by
      simp only [List.length_append, List.length_cons] at hD ⊢; omega
    have e2 : X ++ z :: (Y ++ z :: rest) = (X ++ z :: Y) ++ z :: rest := by simp
    rw [e2, hlen, List.take_left]
    have p1 : (c :: (X ++ z :: Y)).Perm (X ++ c :: (z :: Y)) := List.perm_middle.symm
    have p2 : (X ++ c :: (z :: Y)).Perm (X ++ c :: (Y ++ [z])) :=
      List.Perm.append_left _ (List.Perm.cons _ (List.perm_append_singleton z Y).symm)
    have e3 : X ++ c :: Y ++ [z] = X ++ c :: (Y ++ [z]) := by simp
    rw [e3]
    exact p1.trans p2

theorem genStep_inv (cost : Nat → Nat → Int) (n : Nat) (st : TourGen) (i : Nat)
    (hi : i < n) (h : GenInv n st i) : GenInv n (genStep cost st i) (i + 1) := by
  obtain ⟨h1, h2, h3, h4, h5, h6⟩ := h
  have hj := nextRand_toNat_lt st.iseed st.nbCand h4 h5 (by omega)
  have hseed := nextSeed_range st.iseed h4 h5
  unfold genStep
  refine ⟨by simp [h1], by simp [h2], by simp only; omega, hseed.1, hseed.2, ?_⟩
  simp only
  rw [take_set_succ _ _ _ (by omega), List.append_assoc, List.singleton_append]
  have := take_swap_remove st.cand st.nbCand _ (by omega) hj
  exact (List.Perm.append_left _ this).trans h6

theorem genLoop_inv (cost : Nat → Nat → Int) (n : Nat) (m : Nat) :
    ∀ (a : Nat) (st : TourGen), a + m = n → GenInv n st a →
      GenInv n ((List.range' a m).foldl (genStep cost) st) n := by
  induction m with
  | zero => intro a st ha h; simpa [← ha] using h
  | succ m ih =>
    intro a st ha h
    rw [List.range'_succ, List.foldl_cons]
    exact ih (a + 1) _ (by omega) (genStep_inv cost n st a (by omega) h)

/-- From a generator state of `[1, 2^31 - 2]` and an array of `n ≥ 1` cells,
`generateRandomTour` writes a permutation of `[0, n-1]` and leaves the generator in
`[1, 2^31 - 2]`. -/
theorem generateRandomTour_isTour (iseed : Int) (h1 : 1 ≤ iseed) (h2 : iseed ≤ 2147483646)
    (n : Nat) (hn : 1 ≤ n) (cost : Nat → Nat → Int) (sol : List Nat) (hsol : sol.length = n) :
    IsTour n (generateRandomTour iseed n cost sol).2.2 ∧
      1 ≤ (generateRandomTour iseed n cost sol).1 ∧
      (generateRandomTour iseed n cost sol).1 ≤ 2147483646 := by
  have hr := nextRand_toNat_lt iseed n h1 h2 hn
  have hseed := nextSeed_range iseed h1 h2
  have hinit : GenInv n ⟨(nextRand iseed n).1,
      (List.range n).set ((sol.set 0 (nextRand iseed n).2.toNat).getD 0 0) (n - 1),
      sol.set 0 (nextRand iseed n).2.toNat, n - 1, 0⟩ 1 := by
    have hg : (sol.set 0 (nextRand iseed n).2.toNat).getD 0 0 = (nextRand iseed n).2.toNat := by
      cases sol with
      | nil => simp at hsol; omega
      | cons a sol => rfl
    refine ⟨by simp [hsol], by simp, by simp only; omega, hseed.1, hseed.2, ?_⟩
    simp only
    rw [hg]
    have e : (sol.set 0 (nextRand iseed n).2.toNat).take 1 = [(nextRand iseed n).2.toNat] := by
      cases sol with
      | nil => simp at hsol; omega
      | cons a sol => rfl
    rw [e, List.singleton_append]
    have := take_swap_remove (List.range n) n (nextRand iseed n).2.toNat (by simp) hr
    have g1 : (List.range n).getD (nextRand iseed n).2.toNat 0 = (nextRand iseed n).2.toNat := by
      rw [List.getD_eq_getElem _ _ (by simpa using hr)]; simp
    have g2 : (List.range n).getD (n - 1) 0 = n - 1 := by
      rw [List.getD_eq_getElem _ _ (by simp; omega)]; simp
    have e3 : (List.range n).take n = List.range n := List.take_of_length_le (by simp)
    rw [g1, g2, e3] at this
    exact this
  have hfin := genLoop_inv cost n (n - 1) 1 _ (by omega) hinit
  obtain ⟨f1, f2, f3, f4, f5, f6⟩ := hfin
  have h0 := Nat.eq_sub_of_add_eq f3
  rw [Nat.sub_self] at h0
  rw [h0, List.take_zero, List.append_nil, List.take_of_length_le (by omega)] at f6
  exact ⟨f6, f4, f5⟩

/-! ## The driver: invariants -/

/-- C5. `generateRandomTour` produces a permutation: for every `n ≥ 1` and every generator
state reachable from seed `1`, after `generateRandomTour(n, cost, sol)` the array
`sol[0..n-1]` contains every vertex index of `[0, n-1]` exactly once. -/
theorem generateRandomTour_permutation (n : Nat) (hn : 1 ≤ n) (iseed : Int)
    (hr : Reachable iseed) (cost : Nat → Nat → Int) (sol : List Nat) (hsol : sol.length = n) :
    IsTour n (generateRandomTour iseed n cost sol).2.2 ∧
      (generateRandomTour iseed n cost sol).2.2.length = n ∧
      ∀ v, v < n → (generateRandomTour iseed n cost sol).2.2.count v = 1 := by
  have hrange := reachable_range iseed hr
  have hp := (generateRandomTour_isTour iseed hrange.1 hrange.2 n hn cost sol hsol).1
  refine ⟨hp, hp.length_eq, ?_⟩
  intro v hv
  rw [List.Perm.count_eq hp]
  exact List.count_eq_one_of_mem (List.nodup_range n) (List.mem_range.mpr hv)

theorem generateRandomTour_permutation_witness :
    Reachable 1 ∧ (List.replicate 6 0).length = 6 ∧
      (generateRandomTour 1 6 sampleCost (List.replicate 6 0)).2.2 = [1, 4, 5, 2, 0, 3] ∧
      IsTour 6 (generateRandomTour 1 6 sampleCost (List.replicate 6 0)).2.2 :=
  ⟨Reachable.seed, by decide, by decide,
    (generateRandomTour_permutation 6 (by decide) 1 Reachable.seed sampleCost
      (List.replicate 6 0) (by decide)).1⟩

/-- C6. `generateRandomTour` returns the exact tour cost: for every `n ≥ 1`, every cost
matrix and every generator state, the integer returned equals `length(n, sol, cost)` of the
tour written in the `n` cells of `sol`. -/
theorem generateRandomTour_exact_cost (n : Nat) (_hn : 1 ≤ n) (iseed : Int)
    (cost : Nat → Nat → Int) (sol : List Nat) (_hsol : sol.length = n) :
    (generateRandomTour iseed n cost sol).2.1
      = length n (generateRandomTour iseed n cost sol).2.2 cost :=
  generateRandomTour_total iseed n cost sol

theorem generateRandomTour_exact_cost_witness :
    (List.replicate 6 0).length = 6 ∧
      (generateRandomTour 1 6 sampleCost (List.replicate 6 0)).2.1 = 22 ∧
      (generateRandomTour 1 6 sampleCost (List.replicate 6 0)).2.1
        = length 6 (generateRandomTour 1 6 sampleCost (List.replicate 6 0)).2.2 sampleCost :=
  ⟨by decide, by decide,
    generateRandomTour_exact_cost 6 (by decide) 1 sampleCost (List.replicate 6 0) (by decide)⟩

/-! ## Claims on the driver -/

/-- A result of `greedyLS` is a tour on which the scan finds no positive benefit, whatever
the cost matrix. -/
theorem greedyLS_result_scan (cost : Nat → Nat → Int) (n : Nat) (fuel : Nat) :
    ∀ (total : Int) (s : List Nat) (t' : Int) (s' : List Nat),
      greedyLS fuel total n s cost = some (t', s') → (scan n s' cost).1 = 0 := by
  induction fuel with
  | zero => intro total s t' s' h; simp [greedyLS] at h
  | succ f ih =>
    intro total s t' s' h
    rw [greedyLS_succ] at h
    cases hp : greedyPass total n s cost with
    | none =>
      rw [hp] at h
      simp only [Option.some.injEq, Prod.mk.injEq] at h
      rw [← h.2]
      exact (greedyPass_eq_none total n s cost).mp hp
    | some x =>
      obtain ⟨t1, s1⟩ := x
      rw [hp] at h
      exact ih t1 s1 t' s' h

/-- When the scan finds no positive benefit, `greedyLS` returns its arguments at once. -/
theorem greedyLS_of_scan_zero (cost : Nat → Nat → Int) (n : Nat) (fuel : Nat) (total : Int)
    (s : List Nat) (h : (scan n s cost).1 = 0) :
    greedyLS (fuel + 1) total n s cost = some (total, s) := by
  rw [greedyLS_succ, (greedyPass_eq_none total n s cost).mpr h]

theorem scan_zero_of_benefit_le (cost : Nat → Nat → Int) (n : Nat) (s : List Nat)
    (h : ∀ i j, i < n → i + 2 ≤ j → j ≤ n → benefit n s cost i j ≤ 0) :
    (scan n s cost).1 = 0 := by
  by_contra hne
  obtain ⟨i, j, hi, hij, hj, hpos, -⟩ := scan_attained n s cost hne
  have := h i j hi hij hj
  omega

/-- C14. Idempotence of `greedyLS`: when `greedyLS` returns `(total', solution')`, calling
it again on `(total', solution')` applies no move and returns the same total and tour; more
generally, whenever no examined pair of a tour has positive benefit, `greedyLS` returns its
input total and tour unchanged, in a single pass. -/
theorem greedyLS_idempotent (n : Nat) (cost : Nat → Nat → Int) (total : Int)
    (solution : List Nat) :
    (∀ fuel total' solution', greedyLS fuel total n solution cost = some (total', solution') →
      greedyPass total' n solution' cost = none ∧
      ∀ fuel', greedyLS (fuel' + 1) total' n solution' cost = some (total', solution')) ∧
    ((∀ i j, i < n → i + 2 ≤ j → j ≤ n → benefit n solution cost i j ≤ 0) →
      greedyPass total n solution cost = none ∧
      ∀ fuel', greedyLS (fuel' + 1) total n solution cost = some (total, solution)) := by
  constructor
  · intro fuel total' solution' h
    have h0 := greedyLS_result_scan cost n fuel total solution total' solution' h
    exact ⟨(greedyPass_eq_none total' n solution' cost).mpr h0,
      fun fuel' => greedyLS_of_scan_zero cost n fuel' total' solution' h0⟩
  · intro hb
    have h0 := scan_zero_of_benefit_le cost n solution hb
    exact ⟨(greedyPass_eq_none total n solution cost).mpr h0,
      fun fuel' => greedyLS_of_scan_zero cost n fuel' total solution h0⟩

theorem greedyLS_idempotent_witness :
    greedyLS 2 48 4 [0, 2, 1, 3] quadCost = some (40, [0, 1, 2, 3]) ∧
      greedyPass 40 4 [0, 1, 2, 3] quadCost = none ∧
      ∀ fuel', greedyLS (fuel' + 1) 40 4 [0, 1, 2, 3] quadCost = some (40, [0, 1, 2, 3]) :=
  ⟨by decide, (greedyLS_idempotent 4 quadCost 48 [0, 2, 1, 3]).1 2 40 [0, 1, 2, 3] (by decide)⟩

/-- C20. The swap does not depend on the order of its two positions, and swapping a position
with itself changes nothing; hence the statement `swap(curr, nextRand(n), nextRand(n))` of
`ils` gives the same array and the same generator state whichever argument is evaluated
first. -/
theorem swap_order_independent (array : List Nat) (x y : Nat) :
    swap array x y = swap array y x ∧ swap array x x = array ∧
      ∀ (n : Nat) (st : Int × List Nat), perturbStepRL n st = perturbStep n st := by
  refine ⟨swap_comm array x y, swap_self array x, ?_⟩
  intro n st
  unfold perturbStepRL perturbStep
  simp only
  rw [swap_comm]

/-! ## The generator on every 32-bit state -/

theorem nextRandI_eq_nonneg (s : Int) (h : 0 ≤ s) :
    nextRandI s = 16807 * (s % 127773) - 2836 * (s / 127773) := by
  unfold nextRandI
  rw [Int.tmod_eq_emod h (by norm_num), Int.tdiv_eq_ediv h (by norm_num)]

theorem nextRandI_eq_neg (s : Int) (h : s < 0) :
    nextRandI s = -(16807 * ((-s) % 127773)) + 2836 * ((-s) / 127773) := by
  have hd : Int.tdiv s 127773 = -((-s) / 127773) := by
    have := Int.neg_tdiv (-s) 127773
    rw [neg_neg] at this
    rw [this, Int.tdiv_eq_ediv (by omega) (by norm_num)]
  have hm := Int.tmod_def s 127773
  unfold nextRandI
  rw [hm, hd]
  omega

theorem nextRandI_bounds_int32 (s : Int) (h1 : -2147483648 ≤ s) (h2 : s ≤ 2147483647) :
    -2147483647 < nextRandI s ∧ nextRandI s < 2147483647 := by
  rcases lt_or_le s 0 with h | h
  · rw [nextRandI_eq_neg s h]
    constructor <;> omega
  · rw [nextRandI_eq_nonneg s h]
    constructor <;> omega

/-- From every 32-bit state the next state is in `[1, 2^31 - 1]`. -/
theorem nextSeed_range_int32 (s : Int) (h1 : -2147483648 ≤ s) (h2 : s ≤ 2147483647) :
    1 ≤ nextSeed s ∧ nextSeed s ≤ 2147483647 := by
  have hb := nextRandI_bounds_int32 s h1 h2
  unfold nextSeed
  simp only
  generalize nextRandI s = i at *
  split_ifs with h <;> omega

theorem nextRand_toNat_lt_int32 (s : Int) (n : Nat) (h1 : -2147483648 ≤ s)
    (h2 : s ≤ 2147483647) (hn : 1 ≤ n) : (nextRand s (n : Int)).2.toNat < n := by
  have h := nextSeed_range_int32 s h1 h2
  have hr : 0 ≤ (nextRand s n).2 ∧ (nextRand s n).2 ≤ (n : Int) - 1 := by
    rw [nextRand_snd, Int.tmod_eq_emod (by omega) (by omega)]
    constructor
    · exact Int.emod_nonneg _ (by omega)
    · have := Int.emod_lt_of_pos (nextSeed s) (show (0 : Int) < n by omega)
      omega
  omega

/-- C19. `nextRand` never overflows a 32-bit signed `int`: for every state `s` in
`[1, 2^31 - 1]`, the products `16807*(s mod 127773)` and `2836*(s div 127773)`, their
difference `i`, the sum `2147483647 + i` when `i ≤ 0`, and the new state all lie in
`[-2^31, 2^31 - 1]`. -/
theorem nextRand_no_overflow (s : Int) (h1 : 1 ≤ s) (h2 : s ≤ 2 ^ 31 - 1) :
    (-2 ^ 31 ≤ 16807 * Int.tmod s 127773 ∧ 16807 * Int.tmod s 127773 ≤ 2 ^ 31 - 1) ∧
      (-2 ^ 31 ≤ 2836 * Int.tdiv s 127773 ∧ 2836 * Int.tdiv s 127773 ≤ 2 ^ 31 - 1) ∧
      nextRandI s = 16807 * Int.tmod s 127773 - 2836 * Int.tdiv s 127773 ∧
      (-2 ^ 31 ≤ nextRandI s ∧ nextRandI s ≤ 2 ^ 31 - 1) ∧
      (nextRandI s ≤ 0 →
        -2 ^ 31 ≤ 2147483647 + nextRandI s ∧ 2147483647 + nextRandI s ≤ 2 ^ 31 - 1) ∧
      (-2 ^ 31 ≤ nextSeed s ∧ nextSeed s ≤ 2 ^ 31 - 1) := by
  have h2' : s ≤ 2147483647 := by norm_num at h2; exact h2
  have hm : Int.tmod s 127773 = s % 127773 := Int.tmod_eq_emod (by omega) (by norm_num)
  have hd : Int.tdiv s 127773 = s / 127773 := Int.tdiv_eq_ediv (by omega) (by norm_num)
  have hi := nextRandI_eq_nonneg s (by omega)
  have hs := nextSeed_range_int32 s (by omega) h2'
  rw [hm, hd, hi]
  norm_num
  refine ⟨⟨by omega, by omega⟩, ⟨by omega, by omega⟩, ⟨by omega, by omega⟩, ?_, by omega, hs.2⟩
  intro _
  constructor <;> omega

theorem nextRand_no_overflow_witness :
    (1 : Int) ≤ 2147483647 ∧ (2147483647 : Int) ≤ 2 ^ 31 - 1 ∧
      nextRandI 2147483647 = 0 ∧ nextSeed 2147483647 = 2147483647 ∧
      (-2 ^ 31 ≤ nextSeed 2147483647 ∧ nextSeed 2147483647 ≤ 2 ^ 31 - 1) :=
  ⟨by decide, by decide, by decide, by decide,
    (nextRand_no_overflow 2147483647 (by decide) (by decide)).2.2.2.2.2⟩

/-! ## The driver without perturbation or without iterations -/

theorem genStep_eq_with (cost : Nat → Nat → Int) (st st' : TourGen) (i : Nat)
    (hc : st.cand = st'.cand) (hs : st.sol = st'.sol) (hn : st.nbCand = st'.nbCand)
    (ht : st.total = st'.total) :
    (genStep cost st i).cand
        = (genStepWith cost st' i (nextRand st.iseed (st.nbCand : Int)).2.toNat).cand ∧
      (genStep cost st i).sol
        = (genStepWith cost st' i (nextRand st.iseed (st.nbCand : Int)).2.toNat).sol ∧
      (genStep cost st i).nbCand
        = (genStepWith cost st' i (nextRand st.iseed (st.nbCand : Int)).2.toNat).nbCand ∧
      (genStep cost st i).total
        = (genStepWith cost st' i (nextRand st.iseed (st.nbCand : Int)).2.toNat).total ∧
      (genStep cost st i).iseed = (nextRand st.iseed (st.nbCand : Int)).1 := by
  unfold genStep genStepWith
  simp only [hc, hs, hn, ht, and_self]

/-- The loop of `generateRandomTour` writes what the loop with given draws writes on the
draws that the generator makes. -/
theorem genLoop_eq_with (cost : Nat → Nat → Int) (m : Nat) :
    ∀ (a : Nat) (st st' : TourGen), st.nbCand = m → st.cand = st'.cand → st.sol = st'.sol →
      st.nbCand = st'.nbCand → st.total = st'.total →
      ((List.range' a m).foldl (genStep cost) st).sol
        = (genLoopWith cost (drawsFrom st.iseed m) a st').sol := by
  induction m with
  | zero => intro a st st' _ _ hs _ _; exact hs
  | succ m ih =>
    intro a st st' hm hc hs hn ht
    rw [List.range'_succ, List.foldl_cons]
    obtain ⟨e1, e2, e3, e4, e5⟩ := genStep_eq_with cost st st' a hc hs hn ht
    have hnb : (genStep cost st a).nbCand = m := by
      unfold genStep; simp only; omega
    have := ih (a + 1) (genStep cost st a) _ hnb e1 e2 e3 e4
    rw [this, e5, hm]
    rfl

theorem generateRandomTour_eq_with (iseed : Int) (n : Nat) (cost : Nat → Nat → Int)
    (sol : List Nat) :
    (generateRandomTour iseed n cost sol).2.2
      = generateRandomTourWith (drawsOf iseed n) n cost sol := by
  unfold generateRandomTour generateRandomTourWith drawsOf
  simp only
  exact genLoop_eq_with cost (n - 1) 1 _ _ rfl rfl rfl rfl rfl

theorem drawAll_cons (C : List Nat) (d : Nat) (ds : List Nat) :
    drawAll C (d :: ds) = C.getD d 0 :: drawAll (swapRemove C d) ds := rfl

theorem validDraws_length (m : Nat) : ∀ ds, ValidDraws m ds → ds.length = m := by
  induction m with
  | zero => intro ds h; unfold ValidDraws at h; rw [h]; rfl
  | succ m ih =>
    intro ds h
    cases ds with
    | nil => exact absurd h (by unfold ValidDraws; exact not_false)
    | cons d ds =>
      unfold ValidDraws at h
      rw [List.length_cons, ih ds h.2]

theorem length_swapRemove (C : List Nat) (d : Nat) :
    (swapRemove C d).length = C.length - 1 := by
  unfold swapRemove
  rw [List.length_take, List.length_set]
  omega

theorem swapRemove_perm (C : List Nat) (d : Nat) (hd : d < C.length) :
    (C.getD d 0 :: swapRemove C d).Perm C := by
  have := take_swap_remove C C.length d (le_refl _) hd
  rw [List.take_of_length_le (le_refl _)] at this
  exact this

/-- The loop with given draws writes, after the cells already written, the vertices drawn
from the live candidates. -/
theorem genLoopWith_sol (cost : Nat → Nat → Int) (n : Nat) (ds : List Nat) :
    ∀ (i : Nat) (st : TourGen), st.sol.length = n → st.cand.length = n →
      st.nbCand + i = n → ValidDraws st.nbCand ds →
      (genLoopWith cost ds i st).sol
        = st.sol.take i ++ drawAll (st.cand.take st.nbCand) ds := by
  induction ds with
  | nil =>
    intro i st h1 h2 h3 hv
    have hnb : st.nbCand = 0 := by
      have := validDraws_length st.nbCand [] hv
      simpa using this.symm
    unfold genLoopWith drawAll
    rw [List.append_nil, List.take_of_length_le (by omega)]
  | cons d ds ih =>
    intro i st h1 h2 h3 hv
    obtain ⟨m, hm⟩ : ∃ m, st.nbCand = m + 1 := by
      cases hnb : st.nbCand with
      | zero => rw [hnb] at hv; unfold ValidDraws at hv; exact absurd hv (by simp)
      | succ m => exact ⟨m, rfl⟩
    rw [hm] at hv
    unfold ValidDraws at hv
    obtain ⟨hd, hv'⟩ := hv
    unfold genLoopWith
    have hstep_sol : (genStepWith cost st i d).sol = st.sol.set i (st.cand.getD d 0) := rfl
    have hstep_cand : (genStepWith cost st i d).cand
        = st.cand.set d (st.cand.getD (st.nbCand - 1) 0) := rfl
    have hstep_nb : (genStepWith cost st i d).nbCand = st.nbCand - 1 := rfl
    have hnb1 : st.nbCand - 1 = m := by omega
    rw [ih (i + 1) (genStepWith cost st i d) (by rw [hstep_sol, List.length_set, h1])
      (by rw [hstep_cand, List.length_set, h2]) (by rw [hstep_nb]; omega)
      (by rw [hstep_nb, hnb1]; exact hv')]
    rw [hstep_sol, hstep_cand, hstep_nb, take_set_succ _ _ _ (by omega), hm]
    have hlenC : (st.cand.take (m + 1)).length = m + 1 := by
      rw [List.length_take]; omega
    have hget : (st.cand.take (m + 1)).getD d 0 = st.cand.getD d 0 := by
      simp only [List.getD_eq_getElem?_getD]
      rw [List.getElem?_take_of_lt hd]
    have hlast : (st.cand.take (m + 1)).getD m 0 = st.cand.getD m 0 := by
      simp only [List.getD_eq_getElem?_getD]
      rw [List.getElem?_take_of_lt (by omega)]
    have hsr : swapRemove (st.cand.take (m + 1)) d
        = (st.cand.set d (st.cand.getD m 0)).take m := by
      unfold swapRemove
      rw [hlenC, Nat.add_sub_cancel, hlast, List.set_take, List.set_take, List.take_take,
        Nat.min_eq_left (by omega)]
    rw [drawAll_cons, hget, hsr, Nat.add_sub_cancel]
    simp

/-- On valid draws, `generateRandomTour` with given draws writes the vertices drawn from the
candidates `[0, n-1]`. -/
theorem generateRandomTourWith_eq_drawAll (n : Nat) (hn : 1 ≤ n) (cost : Nat → Nat → Int)
    (sol : List Nat) (hsol : sol.length = n) (ds : List Nat) (hv : ValidDraws n ds) :
    generateRandomTourWith ds n cost sol = drawAll (List.range n) ds := by
  obtain ⟨m, rfl⟩ : ∃ m, n = m + 1 := ⟨n - 1, by omega⟩
  cases ds with
  | nil => exact absurd hv (by unfold ValidDraws; exact not_false)
  | cons d ds =>
    unfold ValidDraws at hv
    obtain ⟨hd, hv'⟩ := hv
    obtain ⟨a, sol', rfl⟩ : ∃ a sol', sol = a :: sol' := by
      cases sol with
      | nil => simp at hsol
      | cons a sol' => exact ⟨a, sol', rfl⟩
    unfold generateRandomTourWith
    simp only [List.set_cons_zero, List.getD_cons_zero, Nat.add_sub_cancel]
    rw [genLoopWith_sol cost (m + 1) ds 1 _ (by simpa using hsol) (by simp) rfl hv']
    rw [drawAll_cons]
    have g1 : (List.range (m + 1)).getD d 0 = d := by
      rw [List.getD_eq_getElem _ _ (by simpa using hd)]; simp
    have g2 : (List.range (m + 1)).getD m 0 = m := by
      rw [List.getD_eq_getElem _ _ (by simp)]; simp
    have hsr : swapRemove (List.range (m + 1)) d
        = ((List.range (m + 1)).set d m).take m := by
      unfold swapRemove
      rw [List.length_range, Nat.add_sub_cancel, g2]
    rw [g1, hsr]
    rfl

theorem drawAll_perm (ds : List Nat) :
    ∀ C : List Nat, ValidDraws C.length ds → (drawAll C ds).Perm C := by
  induction ds with
  | nil =>
    intro C hv
    have := validDraws_length C.length [] hv
    have hC : C = [] := List.length_eq_zero.mp this.symm
    rw [hC]; exact List.Perm.refl _
  | cons d ds ih =>
    intro C hv
    obtain ⟨m, hm⟩ : ∃ m, C.length = m + 1 := by
      cases hnb : C.length with
      | zero => rw [hnb] at hv; unfold ValidDraws at hv; exact absurd hv (by simp)
      | succ m => exact ⟨m, rfl⟩
    rw [hm] at hv
    unfold ValidDraws at hv
    unfold drawAll
    have hl : (swapRemove C d).length = m := by rw [length_swapRemove, hm]; rfl
    have := ih (swapRemove C d) (by rw [hl]; exact hv.2)
    exact (List.Perm.cons _ this).trans (swapRemove_perm C d (by omega))

theorem drawAll_injective (ds : List Nat) :
    ∀ (C : List Nat) (ds' : List Nat), C.Nodup → ValidDraws C.length ds →
      ValidDraws C.length ds' → drawAll C ds = drawAll C ds' → ds = ds' := by
  induction ds with
  | nil =>
    intro C ds' _ hv hv' _
    have h1 := validDraws_length C.length [] hv
    have h2 := validDraws_length C.length ds' hv'
    exact (List.length_eq_zero.mp (by rw [h2, ← h1]; rfl)).symm
  | cons d ds ih =>
    intro C ds' hnd hv hv' heq
    obtain ⟨m, hm⟩ : ∃ m, C.length = m + 1 := by
      cases hnb : C.length with
      | zero => rw [hnb] at hv; unfold ValidDraws at hv; exact absurd hv (by simp)
      | succ m => exact ⟨m, rfl⟩
    rw [hm] at hv hv'
    cases ds' with
    | nil => exact absurd hv' (by unfold ValidDraws; exact not_false)
    | cons d' ds' =>
      unfold ValidDraws at hv hv'
      unfold drawAll at heq
      rw [List.cons.injEq] at heq
      have hdd : d = d' := by
        have h1 : d < C.length := by omega
        have h2 : d' < C.length := by omega
        have := heq.1
        rw [List.getD_eq_getElem _ _ h1, List.getD_eq_getElem _ _ h2] at this
        exact (List.Nodup.getElem_inj_iff hnd).mp this
      subst hdd
      have hl : (swapRemove C d).length = m := by rw [length_swapRemove, hm]; rfl
      have hnd' : (swapRemove C d).Nodup := by
        have := (List.Perm.nodup_iff (swapRemove_perm C d (by omega))).mpr hnd
        exact (List.nodup_cons.mp this).2
      rw [ih (swapRemove C d) ds' hnd' (by rw [hl]; exact hv.2) (by rw [hl]; exact hv'.2) heq.2]

theorem drawAll_surjective (T : List Nat) :
    ∀ C : List Nat, T.Perm C → ∃ ds, ValidDraws C.length ds ∧ drawAll C ds = T := by
  induction T with
  | nil =>
    intro C hp
    have hC : C = [] := List.Perm.eq_nil hp.symm
    rw [hC]
    exact ⟨[], rfl, rfl⟩
  | cons t T ih =>
    intro C hp
    have ht : t ∈ C := hp.subset (List.mem_cons_self _ _)
    obtain ⟨d, hd, hget⟩ := List.getElem_of_mem ht
    have hgetD : C.getD d 0 = t := by rw [List.getD_eq_getElem _ _ hd, hget]
    have hperm := swapRemove_perm C d hd
    rw [hgetD] at hperm
    have hT : T.Perm (swapRemove C d) := (List.Perm.cons_inv (hp.trans hperm.symm))
    obtain ⟨ds, hv, hds⟩ := ih (swapRemove C d) hT
    obtain ⟨m, hm⟩ : ∃ m, C.length = m + 1 := ⟨C.length - 1, by omega⟩
    have hl : (swapRemove C d).length = m := by rw [length_swapRemove, hm]; rfl
    refine ⟨d :: ds, ?_, ?_⟩
    · rw [hm]
      unfold ValidDraws
      exact ⟨by omega, by rw [← hl]; exact hv⟩
    · unfold drawAll
      rw [hgetD, hds]

theorem drawsFrom_valid (m : Nat) :
    ∀ s : Int, -2147483648 ≤ s → s ≤ 2147483647 → ValidDraws m (drawsFrom s m) := by
  induction m with
  | zero => intro s _ _; rfl
  | succ m ih =>
    intro s h1 h2
    have hs := nextSeed_range_int32 s h1 h2
    unfold drawsFrom ValidDraws
    refine ⟨nextRand_toNat_lt_int32 s (m + 1) h1 h2 (by omega), ?_⟩
    exact ih _ (by rw [nextRand_fst]; omega) (by rw [nextRand_fst]; omega)

theorem drawsOf_valid (s : Int) (h1 : -2147483648 ≤ s) (h2 : s ≤ 2147483647) (n : Nat)
    (hn : 1 ≤ n) : ValidDraws n (drawsOf s n) := by
  obtain ⟨m, rfl⟩ : ∃ m, n = m + 1 := ⟨n - 1, by omega⟩
  exact drawsFrom_valid (m + 1) s h1 h2

/-- C18. The Fisher-Yates draw is a bijection: for `n ≥ 1`, with the `n` successive draws of
`generateRandomTour` taken as free inputs `d_0 < n`, `d_1 < n - 1`, ..., `d_(n-1) < 1`, every
draw sequence gives a permutation of `[0, n-1]`, distinct draw sequences give distinct
tours, and every permutation is produced by exactly one draw sequence.  The tour written by
`generateRandomTour` is the one given by the draws that the generator makes, which form such
a sequence. -/
theorem generateRandomTour_draws_bijective (n : Nat) (hn : 1 ≤ n) (cost : Nat → Nat → Int)
    (sol : List Nat) (hsol : sol.length = n) :
    (∀ ds, ValidDraws n ds → IsTour n (generateRandomTourWith ds n cost sol)) ∧
      (∀ ds ds', ValidDraws n ds → ValidDraws n ds' →
        generateRandomTourWith ds n cost sol = generateRandomTourWith ds' n cost sol →
        ds = ds') ∧
      (∀ T, IsTour n T → ∃! ds, ValidDraws n ds ∧ generateRandomTourWith ds n cost sol = T) ∧
      (∀ iseed : Int, -2 ^ 31 ≤ iseed → iseed ≤ 2 ^ 31 - 1 →
        ValidDraws n (drawsOf iseed n) ∧
        (generateRandomTour iseed n cost sol).2.2
          = generateRandomTourWith (drawsOf iseed n) n cost sol) := by
  have hrange : (List.range n).length = n := List.length_range n
  have hinj : ∀ ds ds', ValidDraws n ds → ValidDraws n ds' →
      generateRandomTourWith ds n cost sol = generateRandomTourWith ds' n cost sol →
      ds = ds' := by
    intro ds ds' hv hv' heq
    rw [generateRandomTourWith_eq_drawAll n hn cost sol hsol ds hv,
      generateRandomTourWith_eq_drawAll n hn cost sol hsol ds' hv'] at heq
    exact drawAll_injective ds (List.range n) ds' (List.nodup_range n)
      (by rw [hrange]; exact hv) (by rw [hrange]; exact hv') heq
  refine ⟨?_, hinj, ?_, ?_⟩
  · intro ds hv
    rw [generateRandomTourWith_eq_drawAll n hn cost sol hsol ds hv]
    exact drawAll_perm ds (List.range n) (by rw [hrange]; exact hv)
  · intro T hT
    obtain ⟨ds, hv, hds⟩ := drawAll_surjective T (List.range n) hT
    rw [hrange] at hv
    refine ⟨ds, ⟨hv, ?_⟩, ?_⟩
    · rw [generateRandomTourWith_eq_drawAll n hn cost sol hsol ds hv, hds]
    · intro ds' hds'
      refine hinj ds' ds hds'.1 hv ?_
      rw [hds'.2, generateRandomTourWith_eq_drawAll n hn cost sol hsol ds hv, hds]
  · intro iseed h1 h2
    have h1' : -2147483648 ≤ iseed := by norm_num at h1; exact h1
    have h2' : iseed ≤ 2147483647 := by norm_num at h2; exact h2
    exact ⟨drawsOf_valid iseed h1' h2' n hn, generateRandomTour_eq_with iseed n cost sol⟩

theorem generateRandomTour_draws_bijective_witness :
    ([0, 0, 0] : List Nat).length = 3 ∧ ValidDraws 3 [1, 1, 0] ∧
      generateRandomTourWith [1, 1, 0] 3 quadCost [0, 0, 0] = [1, 2, 0] ∧
      IsTour 3 (generateRandomTourWith [1, 1, 0] 3 quadCost [0, 0, 0]) ∧
      drawsOf 1 3 = [1, 1, 0] ∧
      (generateRandomTour 1 3 quadCost [0, 0, 0]).2.2 = [1, 2, 0] :=
  ⟨by decide, ⟨by decide, by decide, by decide, rfl⟩, by decide,
    (generateRandomTour_draws_bijective 3 (by decide) quadCost [0, 0, 0] (by decide)).1
      [1, 1, 0] ⟨by decide, by decide, by decide, rfl⟩,
    by decide, by decide⟩

end TspLs
